import Mathlib

/-!
# SRT block parser (`cmd/srt/main.go`): shallow embedding and verified properties

Bytes are natural numbers (`'\n'` is 10, `' '` is 32, `'-'` is 45, `'>'` is 62,
`'0'..'9'` are 48..57).  A Go `[]byte` and a Go `string` are both `List Nat`.
The parser is a record passed explicitly from call to call; a call that could
panic in Go (an index or a slice out of range) or whose loop could run forever
returns a tagged outcome, so that the absence of both is a theorem and not an
assumption of the model.
-/

namespace Srt

/-! ## Outcomes of a call -/

/-- Outcome of running a Go function: it returns, it panics at run time
(index or slice bounds), or the loop budget of the model is exhausted. -/
inductive Exec (α : Type) where
  | ret (a : α)
  | panic
  | timeout
deriving DecidableEq, Repr

/-- Go `error` values that the program can build: `errors.New` carries its
text, the two others are the failures of `strconv.Atoi`. -/
inductive error where
  | New (text : String)
  | ErrSyntax
  | ErrRange
deriving DecidableEq, Repr

/-! ## Data model -/

structure Timestamp where
  Hours : Int
  Minutes : Int
  Seconds : Int
  Milliseconds : Int
deriving DecidableEq, Repr

structure Subtitle where
  Id : Int
  Start : Timestamp
  End : Timestamp
  Subs : List Nat
deriving DecidableEq, Repr

inductive flag where
  | EOF
  | ID
  | START
  | END
  | SUBS
deriving DecidableEq, Repr

structure Parser where
  NextIndex : Nat
  Stream : List Nat
  Flag : flag
deriving DecidableEq, Repr

/-- The zero value `Timestamp{}`. -/
def Timestamp.zero : Timestamp := ⟨0, 0, 0, 0⟩

/-- The zero value `Subtitle{}`. -/
def Subtitle.zero : Subtitle := ⟨0, Timestamp.zero, Timestamp.zero, []⟩

/-- ASCII text as bytes (used to write concrete buffers). -/
def bytes (s : String) : List Nat := s.toList.map Char.toNat

/-! ## Go standard library: `strconv.Atoi`, `bytes.TrimSpace` -/

/-- ASCII decimal digit. -/
def isDigit (b : Nat) : Bool := decide (48 ≤ b) && decide (b ≤ 57)

/-- Value of a digit string, most significant digit first. -/
def decimalValue (s : List Nat) : Nat := s.foldl (fun n ch => n * 10 + (ch - 48)) 0

/-- Go `strconv.Atoi` on a 64-bit platform: an optional sign, then one or more
ASCII digits, the value within the range of `int`; anything else is an error.
(Which of the two errors a string both malformed and too long gets is not
modelled; the program only tests the error against `nil`.) -/
def Atoi (s : List Nat) : Except error Int :=
  match s with
  | [] => .error error.ErrSyntax
  | c :: rest =>
    let body := if c = 45 ∨ c = 43 then rest else s
    if body = [] ∨ body.all isDigit = false then .error error.ErrSyntax
    else if c = 45 then
      (if decimalValue body ≤ 2 ^ 63 then .ok (-(decimalValue body : Int)) else .error error.ErrRange)
    else
      (if decimalValue body < 2 ^ 63 then .ok (decimalValue body : Int) else .error error.ErrRange)

/-- True when `w` is an initial segment of `s`. -/
def startsWith : List Nat → List Nat → Bool
  | [], _ => true
  | _ :: _, [] => false
  | a :: w, b :: s => decide (a = b) && startsWith w s

/-- UTF-8 encodings of the code points with the Unicode White_Space property,
the set used by Go `unicode.IsSpace`: U+0009..U+000D, U+0020, U+0085, U+00A0,
U+1680, U+2000..U+200A, U+2028, U+2029, U+202F, U+205F, U+3000. -/
def whiteSpace : List (List Nat) :=
  [[0x09], [0x0A], [0x0B], [0x0C], [0x0D], [0x20],
   [0xC2, 0x85], [0xC2, 0xA0], [0xE1, 0x9A, 0x80],
   [0xE2, 0x80, 0x80], [0xE2, 0x80, 0x81], [0xE2, 0x80, 0x82], [0xE2, 0x80, 0x83],
   [0xE2, 0x80, 0x84], [0xE2, 0x80, 0x85], [0xE2, 0x80, 0x86], [0xE2, 0x80, 0x87],
   [0xE2, 0x80, 0x88], [0xE2, 0x80, 0x89], [0xE2, 0x80, 0x8A],
   [0xE2, 0x80, 0xA8], [0xE2, 0x80, 0xA9], [0xE2, 0x80, 0xAF],
   [0xE2, 0x81, 0x9F], [0xE3, 0x80, 0x80]]

/-- Strip, from the front of `s`, every leading occurrence of one of the byte
sequences of `ws`; at most `fuel` of them (callers pass the length of `s`). -/
def stripLeading (ws : List (List Nat)) : Nat → List Nat → List Nat
  | 0, s => s
  | fuel + 1, s =>
    match ws.find? (fun w => startsWith w s) with
    | some w => if w.length = 0 then s else stripLeading ws fuel (s.drop w.length)
    | none => s

/-- Go `bytes.TrimSpace`: the sub-slice of `s` left after slicing off all
leading and all trailing white space as defined by Unicode (decoded as UTF-8;
an invalid or truncated encoding is not white space). -/
def TrimSpace (s : List Nat) : List Nat :=
  let l := stripLeading whiteSpace s.length s
  (stripLeading (whiteSpace.map List.reverse) l.length l.reverse).reverse

/-! ## The program -/

/-- Go slice expression `s[lo:hi]`; `none` is the run-time panic. -/
def slice (s : List Nat) (lo hi : Nat) : Option (List Nat) :=
  if lo ≤ hi ∧ hi ≤ s.length then some ((s.take hi).drop lo) else none

def bytesToInt (toInt : List Nat) : Int × Option error :=
  match Atoi toInt with
  | .error err => (0, some err)
  | .ok num => (num, none)

def timeToTimestamp (time : List Nat) : Exec (Timestamp × Option error) :=
  let timestamp := Timestamp.zero
  if time.length ≠ 12 then
    .ret (timestamp, some (error.New "time must have the following format: byte(hh:mm:ss,mss)"))
  else
    match slice time 0 2 with
    | none => .panic
    | some hh =>
      match bytesToInt hh with
      | (h, some _) =>
        .ret ({ timestamp with Hours := h }, some (error.New "error converting hours to int"))
      | (h, none) =>
        let timestamp := { timestamp with Hours := h }
        match slice time 3 5 with
        | none => .panic
        | some mm =>
          match bytesToInt mm with
          | (m, some _) =>
            .ret ({ timestamp with Minutes := m }, some (error.New "error converting minutes to int"))
          | (m, none) =>
            let timestamp := { timestamp with Minutes := m }
            match slice time 6 8 with
            | none => .panic
            | some ss =>
              match bytesToInt ss with
              | (s, some _) =>
                .ret ({ timestamp with Seconds := s },
                  some (error.New "error converting seconds to int"))
              | (s, none) =>
                let timestamp := { timestamp with Seconds := s }
                match slice time 10 time.length with
                | none => .panic
                | some ms =>
                  match bytesToInt ms with
                  | (x, some _) =>
                    .ret ({ timestamp with Milliseconds := x },
                      some (error.New "error converting milliseconds to int"))
                  | (x, none) => .ret ({ timestamp with Milliseconds := x }, none)

def isEOF (p : Parser) : Bool × Parser :=
  if p.NextIndex ≥ p.Stream.length then (true, { p with Flag := flag.EOF }) else (false, p)

def peek (p : Parser) : Exec (Nat × Parser) :=
  match isEOF p with
  | (true, p1) => .ret (0, p1)
  | (false, p1) =>
    match p1.Stream[p1.NextIndex]? with
    | some b => .ret (b, p1)
    | none => .panic

def read (p : Parser) : Exec (Nat × Parser) :=
  match peek p with
  | .ret (next, p1) => .ret (next, { p1 with NextIndex := p1.NextIndex + 1 })
  | .panic => .panic
  | .timeout => .timeout

/-- The `for` loop of `parseId`; one unit of fuel per `p.read()`. -/
def parseIdLoop : Nat → Parser → List Nat → Exec (List Nat × Parser)
  | 0, _, _ => .timeout
  | fuel + 1, p, id =>
    match read p with
    | .ret (curr, p1) =>
      if curr ≠ 10 ∧ p1.Flag ≠ flag.EOF then parseIdLoop fuel p1 (id ++ [curr])
      else .ret (id, p1)
    | .panic => .panic
    | .timeout => .timeout

def parseId (p : Parser) : Exec ((Int × Option error) × Parser) :=
  match parseIdLoop (p.Stream.length - p.NextIndex + 1) p [] with
  | .ret (id, p1) =>
    match bytesToInt (TrimSpace id) with
    | (idInt, some _) => .ret ((idInt, some (error.New "error parsing Id")), p1)
    | (idInt, none) => .ret ((idInt, none), p1)
  | .panic => .panic
  | .timeout => .timeout

/-- The `for` loop of `parseTime`; one unit of fuel per `p.read()`. -/
def parseTimeLoop : Nat → Parser → List Nat → Exec (List Nat × Parser)
  | 0, _, _ => .timeout
  | fuel + 1, p, time =>
    match read p with
    | .ret (curr, p1) =>
      if curr ≠ 10 ∧ p1.Flag ≠ flag.EOF then
        if curr = 45 ∨ curr = 62 then parseTimeLoop fuel p1 time
        else if curr = 32 then
          (if p1.Flag = flag.START then .ret (time, p1) else parseTimeLoop fuel p1 time)
        else parseTimeLoop fuel p1 (time ++ [curr])
      else .ret (time, p1)
    | .panic => .panic
    | .timeout => .timeout

def parseTime (p : Parser) : Exec ((Timestamp × Option error) × Parser) :=
  match parseTimeLoop (p.Stream.length - p.NextIndex + 1) p [] with
  | .ret (time, p1) =>
    match timeToTimestamp (TrimSpace time) with
    | .ret r => .ret (r, p1)
    | .panic => .panic
    | .timeout => .timeout
  | .panic => .panic
  | .timeout => .timeout

/-- The `for` loop of `parseSubs`; one unit of fuel per loop-header `p.read()`. -/
def parseSubsLoop : Nat → Parser → List Nat → Exec (List Nat × Parser)
  | 0, _, _ => .timeout
  | fuel + 1, p, subs =>
    match read p with
    | .ret (curr, p1) =>
      if p1.Flag ≠ flag.EOF then
        if curr = 10 then
          match peek p1 with
          | .ret (next, p2) =>
            if next = 10 then
              match read p2 with
              | .ret (_, p3) => .ret (subs, p3)
              | .panic => .panic
              | .timeout => .timeout
            else parseSubsLoop fuel p2 (subs ++ [curr])
          | .panic => .panic
          | .timeout => .timeout
        else parseSubsLoop fuel p1 (subs ++ [curr])
      else .ret (subs, p1)
    | .panic => .panic
    | .timeout => .timeout

def parseSubs (p : Parser) : Exec (List Nat × Parser) :=
  parseSubsLoop (p.Stream.length - p.NextIndex + 1) p []

def eralyEOFErr : error := error.New "unexpected EOF"

/-- The labelled `for` loop of `Parse`; one unit of fuel per iteration. -/
def ParseLoop : Nat → Parser → List Subtitle → Subtitle →
    Exec ((List Subtitle × Option error) × Parser)
  | 0, _, _, _ => .timeout
  | fuel + 1, p, subtitles, currSub =>
    match p.Flag with
    | flag.ID =>
      match parseId p with
      | .ret ((id, err), p1) =>
        if err ≠ none then .ret ((subtitles, err), p1)
        else if p1.Flag = flag.EOF then .ret ((subtitles, some eralyEOFErr), p1)
        else ParseLoop fuel { p1 with Flag := flag.START } subtitles { currSub with Id := id }
      | .panic => .panic
      | .timeout => .timeout
    | flag.START =>
      match parseTime p with
      | .ret ((start, err), p1) =>
        if err ≠ none then .ret ((subtitles, err), p1)
        else if p1.Flag = flag.EOF then .ret ((subtitles, some eralyEOFErr), p1)
        else ParseLoop fuel { p1 with Flag := flag.END } subtitles { currSub with Start := start }
      | .panic => .panic
      | .timeout => .timeout
    | flag.END =>
      match parseTime p with
      | .ret ((end_, err), p1) =>
        if err ≠ none then .ret ((subtitles, err), p1)
        else if p1.Flag = flag.EOF then .ret ((subtitles, some eralyEOFErr), p1)
        else ParseLoop fuel { p1 with Flag := flag.SUBS } subtitles { currSub with End := end_ }
      | .panic => .panic
      | .timeout => .timeout
    | flag.SUBS =>
      match parseSubs p with
      | .ret (subs, p1) =>
        let currSub := { currSub with Subs := subs }
        let subtitles := subtitles ++ [currSub]
        if p1.Flag ≠ flag.EOF then ParseLoop fuel { p1 with Flag := flag.ID } subtitles Subtitle.zero
        else ParseLoop fuel p1 subtitles currSub
      | .panic => .panic
      | .timeout => .timeout
    | flag.EOF => .ret ((subtitles, none), p)

/-- Method `Parse`: the loop started with an empty list and a zero `currSub`.
Every iteration but the last two moves the cursor forward inside the buffer,
hence the budget. -/
def Parser.Parse (p : Parser) : Exec ((List Subtitle × Option error) × Parser) :=
  ParseLoop (p.Stream.length - p.NextIndex + 2) p [] Subtitle.zero

/-- The parser value built by `NewParser` once the file has been read:
cursor 0, state `ID`. -/
def NewParser (stream : List Nat) : Parser := ⟨0, stream, flag.ID⟩

/-- Entries and error returned by `Parse` on a buffer, when it returns. -/
def parseBuffer (stream : List Nat) : Exec (List Subtitle × Option error) :=
  match (NewParser stream).Parse with
  | .ret (r, _) => .ret r
  | .panic => .panic
  | .timeout => .timeout

/-! ## Vocabulary of the statements -/

/-- Bytes that `parseTime` drops while it looks for the start token. -/
def arrowByte (b : Nat) : Bool := decide (b = 45) || decide (b = 62)

/-- Bytes that `parseTime` drops while it looks for the end token. -/
def arrowOrSpace (b : Nat) : Bool := decide (b = 45) || decide (b = 62) || decide (b = 32)

/-- True when the bytes hold two consecutive line feeds (a blank line). -/
def hasBlank : List Nat → Bool
  | [] => false
  | a :: rest => (decide (a = 10) && decide (rest.head? = some 10)) || hasBlank rest

/-- What a loop started at cursor `i` with flag `f` leaves behind: the same
buffer, a cursor strictly further on, and, unless the EOF flag was raised, a
cursor still inside the buffer and an unchanged flag. -/
def Forward (i : Nat) (s : List Nat) (f : flag) (p : Parser) : Prop :=
  p.Stream = s ∧ i < p.NextIndex ∧ (p.Flag ≠ flag.EOF → p.NextIndex ≤ s.length ∧ p.Flag = f)

/-- Two parser values with the same unread bytes and the same flag. -/
def Same (p q : Parser) : Prop :=
  p.Stream.drop p.NextIndex = q.Stream.drop q.NextIndex ∧ p.Flag = q.Flag

/-- Outcomes of one loop on two parser values that agree on the unread bytes. -/
def SameRun (a b : Exec (List Nat × Parser)) : Prop :=
  (a = .timeout ∧ b = .timeout) ∨
    ∃ out p q, a = .ret (out, p) ∧ b = .ret (out, q) ∧ Same p q

/-- Printable ASCII other than the space. -/
def plainByte (b : Nat) : Bool := decide (33 ≤ b) && decide (b ≤ 126)

/-- The timestamp that `timeToTimestamp` builds from a token: hours, minutes and
seconds from the bytes at 0-1, 3-4 and 6-7, milliseconds from the bytes at 10-11. -/
def stampOf (t : List Nat) : Timestamp :=
  ⟨((t.getD 0 0 - 48) * 10 + (t.getD 1 0 - 48) : Nat),
   ((t.getD 3 0 - 48) * 10 + (t.getD 4 0 - 48) : Nat),
   ((t.getD 6 0 - 48) * 10 + (t.getD 7 0 - 48) : Nat),
   ((t.getD 10 0 - 48) * 10 + (t.getD 11 0 - 48) : Nat)⟩

/-- A cue block of the source text: the index digits, the two timestamp
tokens, and the text lines (without their line feeds). -/
structure Cue where
  index : List Nat
  start : List Nat
  stop : List Nat
  lines : List (List Nat)
deriving DecidableEq, Repr

/-- A token `dd:dd:dd,ddd`. -/
def timeToken : List Nat → Bool
  | [a, b, c1, c, d, c2, e, f, c3, g, h, k] =>
    isDigit a && isDigit b && decide (c1 = 58) && isDigit c && isDigit d && decide (c2 = 58) &&
      isDigit e && isDigit f && decide (c3 = 44) && isDigit g && isDigit h && isDigit k
  | _ => false

/-- A non-empty line without a line feed. -/
def textLine (l : List Nat) : Bool := decide (l ≠ []) && l.all (fun b => decide (b ≠ 10))

/-- The index is a non-empty digit string that fits in an `int`, both tokens
have the timestamp form, and there is at least one text line, none empty. -/
def Cue.wellFormed (c : Cue) : Bool :=
  decide (c.index ≠ []) && c.index.all isDigit && decide (decimalValue c.index < 2 ^ 63) &&
    timeToken c.start && timeToken c.stop && decide (c.lines ≠ []) && c.lines.all textLine

/-- The separator ` --> ` of a timing line. -/
def arrow : List Nat := [32, 45, 45, 62, 32]

/-- Every line followed by its line feed. -/
def renderLines : List (List Nat) → List Nat
  | [] => []
  | l :: ls => l ++ 10 :: renderLines ls

/-- The lines joined by single line feeds. -/
def joinLines : List (List Nat) → List Nat
  | [] => []
  | [l] => l
  | l :: l2 :: ls => l ++ 10 :: joinLines (l2 :: ls)

/-- Source text of a cue block with LF line ends, blank line included. -/
def Cue.render (c : Cue) : List Nat :=
  c.index ++ 10 :: (c.start ++ arrow ++ c.stop ++ 10 :: (renderLines c.lines ++ [10]))

/-- Source text of a sequence of cue blocks. -/
def renderCues : List Cue → List Nat
  | [] => []
  | c :: cs => c.render ++ renderCues cs

/-- The entry that `Parse` builds for a well-formed cue block. -/
def Cue.entry (c : Cue) : Subtitle :=
  ⟨(decimalValue c.index : Int), stampOf c.start, stampOf c.stop, joinLines c.lines⟩

/-- Result of `Parse` with `pre` put in front of the returned entries. -/
def withEntries (pre : List Subtitle) :
    Exec (List Subtitle × Option error) → Exec (List Subtitle × Option error)
  | .ret (L, e) => .ret (pre ++ L, e)
  | .panic => .panic
  | .timeout => .timeout

/-- Offsets of a 12-byte token where a byte makes its field fail to convert:
a non-digit at the second byte of a field, or a byte that is neither a digit
nor `+` at the first byte of a field (offsets 2, 5, 8 and 9 are never read). -/
def badField (t : List Nat) : Prop :=
  (∃ j ∈ [1, 4, 7, 11], isDigit (t.getD j 0) = false) ∨
    (∃ j ∈ [0, 3, 6, 10], isDigit (t.getD j 0) = false ∧ t.getD j 0 ≠ 43)

instance (t : List Nat) : Decidable (badField t) := by
  unfold badField
  infer_instance

/-- A non-empty digit string whose value fits in an `int`. -/
def indexToken (ds : List Nat) : Bool :=
  decide (ds ≠ []) && ds.all isDigit && decide (decimalValue ds < 2 ^ 63)

/-- Decimal rendering of `n` on exactly `width` digits. -/
def renderField (width : Nat) (n : Int) : List Nat :=
  (List.range width).reverse.map (fun k => 48 + (n.toNat / 10 ^ k) % 10)

/-- The text `hh:mm:ss,mmm` of a timestamp, widths 2, 2, 2 and 3. -/
def renderStamp (ts : Timestamp) : List Nat :=
  renderField 2 ts.Hours ++ 58 :: (renderField 2 ts.Minutes ++ 58 ::
    (renderField 2 ts.Seconds ++ 44 :: renderField 3 ts.Milliseconds))

/-- Cue `1`, one second long, text `hi`. -/
def cueOne : Cue := ⟨bytes "1", bytes "00:00:01,000", bytes "00:00:02,000", [bytes "hi"]⟩

/-- Cue `2`, two text lines. -/
def cueTwo : Cue :=
  ⟨bytes "2", bytes "00:00:03,000", bytes "00:00:04,000", [bytes "a", bytes "bc"]⟩

/-- An ASCII space or tab. -/
def blankByte (b : Nat) : Bool := decide (b = 32) || decide (b = 9)

/-- All four fields of a timestamp are non-negative. -/
def Timestamp.NonNeg (ts : Timestamp) : Prop :=
  0 ≤ ts.Hours ∧ 0 ≤ ts.Minutes ∧ 0 ≤ ts.Seconds ∧ 0 ≤ ts.Milliseconds

/-- An optional sign followed by one digit or more: the strings that
`strconv.Atoi` converts when the value fits. -/
def signedDigits (s : List Nat) : Bool :=
  match s with
  | [] => false
  | c :: rest =>
    let body := if c = 45 ∨ c = 43 then rest else s
    decide (body ≠ []) && body.all isDigit

/-! ## The format-scanning parser (`cmd/bettersrt/main.go`) -/

namespace Better

/-- Errors of `parseSRTFile`: the text of `errors.New`, or a scan error of
`fmt.Fscanf` (which one is not modelled; the program only returns it). -/
inductive error where
  | New (text : String)
  | Scan
deriving DecidableEq, Repr

/-- The record of `cmd/bettersrt`; a `time.Duration` is a number of
nanoseconds. -/
structure Subtitle where
  Index : Int
  StartTime : Int
  EndTime : Int
  Text : List (List Nat)
deriving DecidableEq, Repr

def Millisecond : Int := 1000000

def Second : Int := 1000 * Millisecond

def Minute : Int := 60 * Second

def Hour : Int := 60 * Minute

/-- Package `fmt`, `SkipSpace` while scanning with `Fscanf`: white space in
front of a verb is skipped, a line feed is an error (`none`). -/
def skipSpace : Nat → List Nat → Option (List Nat)
  | 0, s => some s
  | fuel + 1, s =>
    if s.head? = some 10 then none
    else
      match whiteSpace.find? (fun w => startsWith w s) with
      | some w => if w.length = 0 then some s else skipSpace fuel (s.drop w.length)
      | none => some s

/-- Package `fmt`, the verb `%d` with a maximal width: white space is skipped,
then an optional sign and one digit or more are read, at most `width` bytes in
all, and converted by `strconv.ParseInt` in base 10. The result is the value
and the unread input; `none` stands for every scan error. -/
def scanInt (width : Nat) (input : List Nat) : Option (Int × List Nat) :=
  match skipSpace input.length input with
  | none => none
  | some s =>
    let signLen := if (s.head? = some 43 ∨ s.head? = some 45) ∧ 1 ≤ width then 1 else 0
    let digits := ((s.drop signLen).take (width - signLen)).takeWhile isDigit
    if digits = [] then none
    else
      match Atoi (s.take signLen ++ digits) with
      | .ok v => some (v, s.drop (signLen + digits.length))
      | .error _ => none

/-- Package `fmt`, a literal byte of the format: the input must have it next. -/
def expect (c : Nat) (input : List Nat) : Option (List Nat) :=
  match input with
  | b :: rest => if b = c then some rest else none
  | [] => none

/-- The width of a verb written without one (`hugeWid` in package `fmt`). -/
def hugeWid : Nat := 2 ^ 30

/-- `fmt.Fscanf(strings.NewReader(timestamp), "%02d:%02d:%02d,%03d", ...)` and the
sum of the four durations. The widths keep the four numbers within three
digits, so the 64-bit sum cannot overflow. -/
def parseTimestamp (timestamp : List Nat) : Except error Int :=
  match scanInt 2 timestamp with
  | none => .error error.Scan
  | some (hr, r1) =>
    match expect 58 r1 with
    | none => .error error.Scan
    | some r2 =>
      match scanInt 2 r2 with
      | none => .error error.Scan
      | some (min, r3) =>
        match expect 58 r3 with
        | none => .error error.Scan
        | some r4 =>
          match scanInt 2 r4 with
          | none => .error error.Scan
          | some (sec, r5) =>
            match expect 44 r5 with
            | none => .error error.Scan
            | some r6 =>
              match scanInt 3 r6 with
              | none => .error error.Scan
              | some (ms, _) => .ok (hr * Hour + min * Minute + sec * Second + ms * Millisecond)

/-- `strings.Split` for a non-empty separator: `acc` is the piece being read,
`skip` the number of bytes of a separator still to pass over. -/
def splitAux (sep : List Nat) : List Nat → Nat → List Nat → List (List Nat)
  | acc, _, [] => [acc]
  | acc, skip + 1, _ :: rest => splitAux sep acc skip rest
  | acc, 0, b :: rest =>
    if startsWith sep (b :: rest) then acc :: splitAux sep [] (sep.length - 1) rest
    else splitAux sep (acc ++ [b]) 0 rest

def Split (s sep : List Nat) : List (List Nat) := splitAux sep [] 0 s

/-- The `for scanner.Scan()` loop of `parseSRTFile` and the return that follows
it, over the lines that the scanner delivers (opening the file and the errors
of the scanner are outside the model). `curr` is the pointer `curr`, `none`
for `nil`. -/
def parseSRTLoop : List (List Nat) → List Subtitle → Option Subtitle →
    List Subtitle × Option error
  | [], subtitles, _ => (subtitles, none)
  | text :: more, subtitles, curr =>
    let line := TrimSpace text
    match curr with
    | some c =>
      if line = [] then parseSRTLoop more (subtitles ++ [c]) none
      else if c.StartTime = 0 ∨ c.EndTime = 0 then
        match Split line (bytes " --> ") with
        | [a, b] =>
          match parseTimestamp a with
          | .error err => ([], some err)
          | .ok start =>
            match parseTimestamp b with
            | .error err => ([], some err)
            | .ok end_ =>
              parseSRTLoop more subtitles (some { c with StartTime := start, EndTime := end_ })
        | _ => ([], some (error.New "Invalid time format found while parsing."))
      else parseSRTLoop more subtitles (some { c with Text := c.Text ++ [line] })
    | none =>
      match scanInt hugeWid line with
      | none => ([], some error.Scan)
      | some (index, _) => parseSRTLoop more subtitles (some ⟨index, 0, 0, []⟩)

/-- Function `parseSRTFile` on the lines of the file. -/
def parseSRTFile (lines : List (List Nat)) : List Subtitle × Option error :=
  parseSRTLoop lines [] none

end Better

/-! ## Reading one byte -/

theorem drop_next {s : List Nat} {i b : Nat} {rest : List Nat} (h : s.drop i = b :: rest) :
    s.drop (i + 1) = rest := by
  rw [← List.drop_drop, h]; rfl

theorem drop_add_append {s : List Nat} {i : Nat} {w r : List Nat} (h : s.drop i = w ++ r) :
    s.drop (i + w.length) = r := by
  rw [← List.drop_drop, h]; simp

theorem peek_cons {i : Nat} {s : List Nat} {f : flag} {b : Nat} {rest : List Nat}
    (h : s.drop i = b :: rest) : peek ⟨i, s, f⟩ = .ret (b, ⟨i, s, f⟩) := by
  have hlt : i < s.length := by
    by_contra hc
    rw [List.drop_eq_nil_of_le (by omega)] at h; cases h
  have hget : s[i]? = some b := by
    have := List.head?_drop s i
    rw [h] at this; simpa using this.symm
  simp [peek, isEOF, Nat.not_le.mpr hlt, hget]

theorem peek_nil {i : Nat} {s : List Nat} {f : flag} (h : s.drop i = []) :
    peek ⟨i, s, f⟩ = .ret (0, ⟨i, s, flag.EOF⟩) := by
  have hle : s.length ≤ i := List.drop_eq_nil_iff.mp h
  simp [peek, isEOF, hle]

theorem read_cons {i : Nat} {s : List Nat} {f : flag} {b : Nat} {rest : List Nat}
    (h : s.drop i = b :: rest) : read ⟨i, s, f⟩ = .ret (b, ⟨i + 1, s, f⟩) := by
  simp [read, peek_cons h]

theorem read_nil {i : Nat} {s : List Nat} {f : flag} (h : s.drop i = []) :
    read ⟨i, s, f⟩ = .ret (0, ⟨i + 1, s, flag.EOF⟩) := by
  simp [read, peek_nil h]

/-- A read never panics: it yields the next byte and keeps the state, or it
is past the end and raises the EOF flag. -/
theorem read_cases (i : Nat) (s : List Nat) (f : flag) :
    (∃ b rest, s.drop i = b :: rest ∧ read ⟨i, s, f⟩ = .ret (b, ⟨i + 1, s, f⟩)) ∨
    (s.drop i = [] ∧ read ⟨i, s, f⟩ = .ret (0, ⟨i + 1, s, flag.EOF⟩)) := by
  cases h : s.drop i with
  | nil => exact Or.inr ⟨rfl, read_nil h⟩
  | cons b rest => exact Or.inl ⟨b, rest, rfl, read_cons h⟩

theorem peek_cases (i : Nat) (s : List Nat) (f : flag) :
    (∃ b rest, s.drop i = b :: rest ∧ peek ⟨i, s, f⟩ = .ret (b, ⟨i, s, f⟩)) ∨
    (s.drop i = [] ∧ peek ⟨i, s, f⟩ = .ret (0, ⟨i, s, flag.EOF⟩)) := by
  cases h : s.drop i with
  | nil => exact Or.inr ⟨rfl, peek_nil h⟩
  | cons b rest => exact Or.inl ⟨b, rest, rfl, peek_cons h⟩

/-! ## The loops on a line that is present in the buffer -/

theorem parseIdLoop_line (ds : List Nat) :
    ∀ (fuel i : Nat) (s : List Nat) (f : flag) (acc rest : List Nat),
      (∀ b ∈ ds, b ≠ 10) → f ≠ flag.EOF → s.drop i = ds ++ 10 :: rest → ds.length < fuel →
      parseIdLoop fuel ⟨i, s, f⟩ acc = .ret (acc ++ ds, ⟨i + ds.length + 1, s, f⟩) := by
  induction ds with
  | nil =>
    intro fuel i s f acc rest _ hf h hfuel
    obtain ⟨n, rfl⟩ : ∃ n, fuel = n + 1 := ⟨fuel - 1, by simp at hfuel; omega⟩
    simp [parseIdLoop, read_cons (by simpa using h : s.drop i = 10 :: rest)]
  | cons d ds ih =>
    intro fuel i s f acc rest hd hf h hfuel
    obtain ⟨n, rfl⟩ : ∃ n, fuel = n + 1 := ⟨fuel - 1, by simp at hfuel; omega⟩
    have h1 : s.drop i = d :: (ds ++ 10 :: rest) := by simpa using h
    have hd10 : d ≠ 10 := hd d (by simp)
    simp only [parseIdLoop, read_cons h1]
    rw [if_pos ⟨hd10, hf⟩]
    rw [ih n (i + 1) s f (acc ++ [d]) rest (fun b hb => hd b (by simp [hb])) hf (drop_next h1)
      (by simp at hfuel; omega)]
    simp [Nat.add_assoc, Nat.add_comm 1]

theorem parseTimeLoop_start (w : List Nat) :
    ∀ (fuel i : Nat) (s : List Nat) (acc rest : List Nat),
      (∀ b ∈ w, b ≠ 10 ∧ b ≠ 32) → s.drop i = w ++ 32 :: rest → w.length < fuel →
      parseTimeLoop fuel ⟨i, s, flag.START⟩ acc =
        .ret (acc ++ w.filter (fun b => !arrowByte b), ⟨i + w.length + 1, s, flag.START⟩) := by
  induction w with
  | nil =>
    intro fuel i s acc rest _ h hfuel
    obtain ⟨n, rfl⟩ : ∃ n, fuel = n + 1 := ⟨fuel - 1, by simp at hfuel; omega⟩
    simp [parseTimeLoop, read_cons (by simpa using h : s.drop i = 32 :: rest)]
  | cons d w ih =>
    intro fuel i s acc rest hd h hfuel
    obtain ⟨n, rfl⟩ : ∃ n, fuel = n + 1 := ⟨fuel - 1, by simp at hfuel; omega⟩
    have h1 : s.drop i = d :: (w ++ 32 :: rest) := by simpa using h
    have hd10 : d ≠ 10 ∧ d ≠ 32 := hd d (by simp)
    have hrec := fun acc => ih n (i + 1) s acc rest (fun b hb => hd b (by simp [hb]))
      (drop_next h1) (by simp at hfuel; omega)
    simp only [parseTimeLoop, read_cons h1]
    rw [if_pos ⟨hd10.1, by decide⟩]
    by_cases ha : d = 45 ∨ d = 62
    · rw [if_pos ha, hrec]
      have : arrowByte d = true := by rcases ha with rfl | rfl <;> decide
      simp [this, Nat.add_assoc, Nat.add_comm 1]
    · rw [if_neg ha, if_neg hd10.2, hrec]
      have : arrowByte d = false := by
        simp only [arrowByte, Bool.or_eq_false_iff, decide_eq_false_iff_not]
        exact ⟨fun h => ha (Or.inl h), fun h => ha (Or.inr h)⟩
      simp [this, Nat.add_assoc, Nat.add_comm 1]

theorem parseTimeLoop_end (w : List Nat) :
    ∀ (fuel i : Nat) (s : List Nat) (acc rest : List Nat),
      (∀ b ∈ w, b ≠ 10) → s.drop i = w ++ 10 :: rest → w.length < fuel →
      parseTimeLoop fuel ⟨i, s, flag.END⟩ acc =
        .ret (acc ++ w.filter (fun b => !arrowOrSpace b), ⟨i + w.length + 1, s, flag.END⟩) := by
  induction w with
  | nil =>
    intro fuel i s acc rest _ h hfuel
    obtain ⟨n, rfl⟩ : ∃ n, fuel = n + 1 := ⟨fuel - 1, by simp at hfuel; omega⟩
    simp [parseTimeLoop, read_cons (by simpa using h : s.drop i = 10 :: rest)]
  | cons d w ih =>
    intro fuel i s acc rest hd h hfuel
    obtain ⟨n, rfl⟩ : ∃ n, fuel = n + 1 := ⟨fuel - 1, by simp at hfuel; omega⟩
    have h1 : s.drop i = d :: (w ++ 10 :: rest) := by simpa using h
    have hd10 : d ≠ 10 := hd d (by simp)
    have hrec := fun acc => ih n (i + 1) s acc rest (fun b hb => hd b (by simp [hb]))
      (drop_next h1) (by simp at hfuel; omega)
    simp only [parseTimeLoop, read_cons h1]
    rw [if_pos ⟨hd10, by decide⟩]
    by_cases ha : d = 45 ∨ d = 62
    · rw [if_pos ha, hrec]
      have : arrowOrSpace d = true := by rcases ha with rfl | rfl <;> decide
      simp [this, Nat.add_assoc, Nat.add_comm 1]
    · rw [if_neg ha]
      by_cases hs : d = 32
      · rw [if_pos hs, if_neg (by decide), hrec]
        have : arrowOrSpace d = true := by subst hs; decide
        simp [this, Nat.add_assoc, Nat.add_comm 1]
      · rw [if_neg hs, hrec]
        have : arrowOrSpace d = false := by
          simp only [arrowOrSpace, Bool.or_eq_false_iff, decide_eq_false_iff_not]
          exact ⟨⟨fun h => ha (Or.inl h), fun h => ha (Or.inr h)⟩, hs⟩
        simp [this, Nat.add_assoc, Nat.add_comm 1]

theorem parseSubsLoop_blank (t : List Nat) :
    ∀ (fuel i : Nat) (s : List Nat) (f : flag) (acc rest : List Nat),
      hasBlank (t ++ [10]) = false → f ≠ flag.EOF → s.drop i = t ++ 10 :: 10 :: rest →
      t.length < fuel →
      parseSubsLoop fuel ⟨i, s, f⟩ acc = .ret (acc ++ t, ⟨i + t.length + 2, s, f⟩) := by
  induction t with
  | nil =>
    intro fuel i s f acc rest _ hf h hfuel
    obtain ⟨n, rfl⟩ : ∃ n, fuel = n + 1 := ⟨fuel - 1, by simp at hfuel; omega⟩
    have h1 : s.drop i = 10 :: 10 :: rest := by simpa using h
    simp [parseSubsLoop, read_cons h1, hf, peek_cons (drop_next h1), read_cons (drop_next h1)]
  | cons d t ih =>
    intro fuel i s f acc rest hb hf h hfuel
    obtain ⟨n, rfl⟩ : ∃ n, fuel = n + 1 := ⟨fuel - 1, by simp at hfuel; omega⟩
    have h1 : s.drop i = d :: (t ++ 10 :: 10 :: rest) := by simpa using h
    have hb1 : hasBlank (t ++ [10]) = false := by
      simp only [List.cons_append, hasBlank, Bool.or_eq_false_iff] at hb
      exact hb.2
    have hrec := ih n (i + 1) s f (acc ++ [d]) rest hb1 hf (drop_next h1)
      (by simp at hfuel; omega)
    simp only [parseSubsLoop, read_cons h1]
    rw [if_pos hf]
    by_cases hd : d = 10
    · subst hd
      rw [if_pos rfl]
      cases t with
      | nil => simp [hasBlank] at hb
      | cons e t =>
        have he : e ≠ 10 := by
          intro he
          subst he
          simp [hasBlank] at hb
        have h2 : s.drop (i + 1) = e :: (t ++ 10 :: 10 :: rest) := by
          simpa using drop_next h1
        simp only [peek_cons h2]
        rw [if_neg he, hrec]
        simp [Nat.add_assoc, Nat.add_comm 1]
    · rw [if_neg hd, hrec]
      simp [Nat.add_assoc, Nat.add_comm 1]

theorem parseSubsLoop_eof (t : List Nat) :
    ∀ (fuel i : Nat) (s : List Nat) (f : flag) (acc : List Nat),
      hasBlank t = false → f ≠ flag.EOF → s.drop i = t → t.length < fuel →
      parseSubsLoop fuel ⟨i, s, f⟩ acc = .ret (acc ++ t, ⟨i + t.length + 1, s, flag.EOF⟩) := by
  induction t with
  | nil =>
    intro fuel i s f acc _ hf h hfuel
    obtain ⟨n, rfl⟩ : ∃ n, fuel = n + 1 := ⟨fuel - 1, by simp at hfuel; omega⟩
    simp [parseSubsLoop, read_nil h]
  | cons d t ih =>
    intro fuel i s f acc hb hf h hfuel
    obtain ⟨n, rfl⟩ : ∃ n, fuel = n + 1 := ⟨fuel - 1, by simp at hfuel; omega⟩
    have hb1 : hasBlank t = false := by
      simp only [hasBlank, Bool.or_eq_false_iff] at hb
      exact hb.2
    have hrec := ih n (i + 1) s f (acc ++ [d]) hb1 hf (drop_next h) (by simp at hfuel; omega)
    simp only [parseSubsLoop, read_cons h]
    rw [if_pos hf]
    by_cases hd : d = 10
    · subst hd
      rw [if_pos rfl]
      cases t with
      | nil =>
        obtain ⟨m, rfl⟩ : ∃ m, n = m + 1 := ⟨n - 1, by simp at hfuel; omega⟩
        have h2 : s.drop (i + 1) = [] := drop_next h
        simp [peek_nil h2, parseSubsLoop, read_nil h2]
      | cons e t =>
        have he : e ≠ 10 := by
          intro he
          subst he
          simp [hasBlank] at hb
        have h2 : s.drop (i + 1) = e :: t := drop_next h
        simp only [peek_cons h2]
        rw [if_neg he, hrec]
        simp [Nat.add_assoc, Nat.add_comm 1]
    · rw [if_neg hd, hrec]
      simp [Nat.add_assoc, Nat.add_comm 1]

/-! ## Every loop returns, and moves the cursor forward -/

theorem parseIdLoop_total :
    ∀ (fuel i : Nat) (s : List Nat) (f : flag) (acc : List Nat), s.length - i < fuel →
      ∃ out p, parseIdLoop fuel ⟨i, s, f⟩ acc = .ret (out, p) ∧ Forward i s f p := by
  intro fuel
  induction fuel with
  | zero => intro i s f acc h; omega
  | succ n ih =>
    intro i s f acc hfuel
    rcases read_cases i s f with ⟨b, rest, hd, hr⟩ | ⟨hd, hr⟩
    · have hlt : i < s.length := by
        by_contra hc
        rw [List.drop_eq_nil_of_le (by omega)] at hd; cases hd
      simp only [parseIdLoop, hr]
      by_cases hc : b ≠ 10 ∧ f ≠ flag.EOF
      · rw [if_pos hc]
        obtain ⟨out, p, hp, hs, hi, hfl⟩ := ih (i + 1) s f (acc ++ [b]) (by omega)
        exact ⟨out, p, hp, hs, by omega, hfl⟩
      · rw [if_neg hc]
        exact ⟨acc, _, rfl, rfl, Nat.lt_succ_self i, fun _ => ⟨hlt, rfl⟩⟩
    · simp only [parseIdLoop, hr]
      rw [if_neg (by simp)]
      exact ⟨acc, _, rfl, rfl, Nat.lt_succ_self i, fun h => absurd rfl h⟩

theorem parseTimeLoop_total :
    ∀ (fuel i : Nat) (s : List Nat) (f : flag) (acc : List Nat), s.length - i < fuel →
      ∃ out p, parseTimeLoop fuel ⟨i, s, f⟩ acc = .ret (out, p) ∧ Forward i s f p := by
  intro fuel
  induction fuel with
  | zero => intro i s f acc h; omega
  | succ n ih =>
    intro i s f acc hfuel
    rcases read_cases i s f with ⟨b, rest, hd, hr⟩ | ⟨hd, hr⟩
    · have hlt : i < s.length := by
        by_contra hc
        rw [List.drop_eq_nil_of_le (by omega)] at hd; cases hd
      have hrec : ∀ acc, ∃ out p, parseTimeLoop n ⟨i + 1, s, f⟩ acc = .ret (out, p) ∧
          Forward i s f p := by
        intro acc
        obtain ⟨out, p, hp, hs, hi, hfl⟩ := ih (i + 1) s f acc (by omega)
        exact ⟨out, p, hp, hs, by omega, hfl⟩
      have hstop : ∀ acc : List Nat, ∃ out p,
          (Exec.ret (acc, (⟨i + 1, s, f⟩ : Parser)) : Exec (List Nat × Parser)) = .ret (out, p) ∧
          Forward i s f p :=
        fun acc => ⟨acc, _, rfl, rfl, Nat.lt_succ_self i, fun _ => ⟨hlt, rfl⟩⟩
      simp only [parseTimeLoop, hr]
      split_ifs
      · exact hrec _
      · exact hstop _
      · exact hrec _
      · exact hrec _
      · exact hstop _
    · simp only [parseTimeLoop, hr]
      rw [if_neg (by simp)]
      exact ⟨acc, _, rfl, rfl, Nat.lt_succ_self i, fun h => absurd rfl h⟩

theorem parseSubsLoop_total :
    ∀ (fuel i : Nat) (s : List Nat) (f : flag) (acc : List Nat), s.length - i < fuel →
      ∃ out p, parseSubsLoop fuel ⟨i, s, f⟩ acc = .ret (out, p) ∧ Forward i s f p := by
  intro fuel
  induction fuel with
  | zero => intro i s f acc h; omega
  | succ n ih =>
    intro i s f acc hfuel
    rcases read_cases i s f with ⟨b, rest, hd, hr⟩ | ⟨hd, hr⟩
    · have hlt : i < s.length := by
        by_contra hc
        rw [List.drop_eq_nil_of_le (by omega)] at hd; cases hd
      have hrec : ∀ acc, ∃ out p, parseSubsLoop n ⟨i + 1, s, f⟩ acc = .ret (out, p) ∧
          Forward i s f p := by
        intro acc
        obtain ⟨out, p, hp, hs, hi, hfl⟩ := ih (i + 1) s f acc (by omega)
        exact ⟨out, p, hp, hs, by omega, hfl⟩
      simp only [parseSubsLoop, hr]
      by_cases hf : f ≠ flag.EOF
      · rw [if_pos hf]
        by_cases hb : b = 10
        · rw [if_pos hb]
          rcases peek_cases (i + 1) s f with ⟨c, rest2, hd2, hp2⟩ | ⟨hd2, hp2⟩
          · have hlt2 : i + 1 < s.length := by
              by_contra hc
              rw [List.drop_eq_nil_of_le (by omega)] at hd2; cases hd2
            simp only [hp2]
            by_cases hc : c = 10
            · rw [if_pos hc, read_cons hd2]
              exact ⟨acc, _, rfl, rfl, by show i < i + 1 + 1; omega, fun _ => ⟨by show i + 1 + 1 ≤ s.length; omega, rfl⟩⟩
            · rw [if_neg hc]
              exact hrec _
          · simp only [hp2]
            rw [if_neg (by decide)]
            obtain ⟨out, p, hp, hs, hi, hfl⟩ := ih (i + 1) s flag.EOF (acc ++ [b]) (by omega)
            refine ⟨out, p, hp, hs, by omega, fun hne => ?_⟩
            exact absurd (hfl hne).2 hne
        · rw [if_neg hb]
          exact hrec _
      · rw [if_neg hf]
        exact ⟨acc, _, rfl, rfl, Nat.lt_succ_self i, fun _ => ⟨hlt, rfl⟩⟩
    · simp only [parseSubsLoop, hr]
      rw [if_neg (by simp)]
      exact ⟨acc, _, rfl, rfl, Nat.lt_succ_self i, fun h => absurd rfl h⟩

theorem slice_some {s : List Nat} {lo hi : Nat} (h1 : lo ≤ hi) (h2 : hi ≤ s.length) :
    slice s lo hi = some ((s.take hi).drop lo) := by
  simp [slice, h1, h2]

/-- The length test of `timeToTimestamp` keeps its four slices in range. -/
theorem timeToTimestamp_total (time : List Nat) : ∃ r, timeToTimestamp time = .ret r := by
  unfold timeToTimestamp
  by_cases h : time.length = 12
  · simp only [h, ne_eq, not_true_eq_false, if_false]
    rw [slice_some (by omega) (by omega), slice_some (by omega) (by omega),
      slice_some (by omega) (by omega), slice_some (by omega) (by omega)]
    simp only
    rcases bytesToInt (List.drop 0 (List.take 2 time)) with ⟨a, _ | ea⟩
    · simp only
      rcases bytesToInt (List.drop 3 (List.take 5 time)) with ⟨b, _ | eb⟩
      · simp only
        rcases bytesToInt (List.drop 6 (List.take 8 time)) with ⟨c, _ | ec⟩
        · simp only
          rcases bytesToInt (List.drop 10 (List.take 12 time)) with ⟨d, _ | ed⟩
          · exact ⟨_, rfl⟩
          · exact ⟨_, rfl⟩
        · exact ⟨_, rfl⟩
      · exact ⟨_, rfl⟩
    · exact ⟨_, rfl⟩
  · simp only [ne_eq, h, not_false_eq_true, if_true]
    exact ⟨_, rfl⟩

theorem parseId_total (i : Nat) (s : List Nat) (f : flag) :
    ∃ r p, parseId ⟨i, s, f⟩ = .ret (r, p) ∧ Forward i s f p := by
  obtain ⟨out, p, hp, hfw⟩ := parseIdLoop_total (s.length - i + 1) i s f [] (by omega)
  simp only [parseId, hp]
  rcases bytesToInt (TrimSpace out) with ⟨a, _ | e⟩
  · exact ⟨_, p, rfl, hfw⟩
  · exact ⟨_, p, rfl, hfw⟩

theorem parseTime_total (i : Nat) (s : List Nat) (f : flag) :
    ∃ r p, parseTime ⟨i, s, f⟩ = .ret (r, p) ∧ Forward i s f p := by
  obtain ⟨out, p, hp, hfw⟩ := parseTimeLoop_total (s.length - i + 1) i s f [] (by omega)
  obtain ⟨r, hr⟩ := timeToTimestamp_total (TrimSpace out)
  simp only [parseTime, hp, hr]
  exact ⟨r, p, rfl, hfw⟩

theorem parseSubs_total (i : Nat) (s : List Nat) (f : flag) :
    ∃ r p, parseSubs ⟨i, s, f⟩ = .ret (r, p) ∧ Forward i s f p :=
  parseSubsLoop_total (s.length - i + 1) i s f [] (by omega)

/-- With a budget above the number of unread bytes plus one, the loop of
`Parse` returns: no panic, no exhausted budget. -/
theorem ParseLoop_total :
    ∀ (fuel i : Nat) (s : List Nat) (f : flag) (subs : List Subtitle) (cur : Subtitle),
      s.length - i + 1 < fuel → ∃ r, ParseLoop fuel ⟨i, s, f⟩ subs cur = .ret r := by
  intro fuel
  induction fuel with
  | zero => intro i s f subs cur h; omega
  | succ n ih =>
    intro i s f subs cur hfuel
    cases f with
    | EOF => exact ⟨_, rfl⟩
    | ID =>
      obtain ⟨⟨id, err⟩, ⟨i1, s1, f1⟩, hp, hs, hi, hfl⟩ := parseId_total i s flag.ID
      simp only at hs hi hfl
      subst hs
      simp only [ParseLoop, hp]
      split_ifs with h1 h2
      · exact ⟨_, rfl⟩
      · exact ⟨_, rfl⟩
      · exact ih i1 s1 _ _ _ (by have := (hfl h2).1; omega)
    | START =>
      obtain ⟨⟨t, err⟩, ⟨i1, s1, f1⟩, hp, hs, hi, hfl⟩ := parseTime_total i s flag.START
      simp only at hs hi hfl
      subst hs
      simp only [ParseLoop, hp]
      split_ifs with h1 h2
      · exact ⟨_, rfl⟩
      · exact ⟨_, rfl⟩
      · exact ih i1 s1 _ _ _ (by have := (hfl h2).1; omega)
    | END =>
      obtain ⟨⟨t, err⟩, ⟨i1, s1, f1⟩, hp, hs, hi, hfl⟩ := parseTime_total i s flag.END
      simp only at hs hi hfl
      subst hs
      simp only [ParseLoop, hp]
      split_ifs with h1 h2
      · exact ⟨_, rfl⟩
      · exact ⟨_, rfl⟩
      · exact ih i1 s1 _ _ _ (by have := (hfl h2).1; omega)
    | SUBS =>
      obtain ⟨t, ⟨i1, s1, f1⟩, hp, hs, hi, hfl⟩ := parseSubs_total i s flag.SUBS
      simp only at hs hi hfl
      subst hs
      simp only [ParseLoop, hp]
      split_ifs with h1
      · exact ih i1 s1 _ _ _ (by have := (hfl h1).1; omega)
      · have hf1 : f1 = flag.EOF := by simpa using h1
        subst hf1
        obtain ⟨m, rfl⟩ : ∃ m, n = m + 1 := ⟨n - 1, by omega⟩
        exact ⟨_, rfl⟩

/-- A larger budget does not change what the loop of `Parse` returns. -/
theorem ParseLoop_mono :
    ∀ (n : Nat) (p : Parser) (subs : List Subtitle) (cur : Subtitle)
      (r : (List Subtitle × Option error) × Parser),
      ParseLoop n p subs cur = .ret r → ∀ k, ParseLoop (n + k) p subs cur = .ret r := by
  intro n
  induction n with
  | zero => intro p subs cur r h; simp [ParseLoop] at h
  | succ n ih =>
    intro p subs cur r h k
    rw [show n + 1 + k = (n + k) + 1 by omega]
    obtain ⟨i, s, f⟩ := p
    cases f with
    | EOF => simpa [ParseLoop] using h
    | ID =>
      simp only [ParseLoop] at h ⊢
      cases hid : parseId ⟨i, s, flag.ID⟩ with
      | ret x =>
        obtain ⟨⟨id, err⟩, p1⟩ := x
        simp only [hid] at h ⊢
        split_ifs at h ⊢ with h1 h2
        · exact h
        · exact h
        · exact ih _ _ _ _ h k
      | panic => simp [hid] at h
      | timeout => simp [hid] at h
    | START =>
      simp only [ParseLoop] at h ⊢
      cases hid : parseTime ⟨i, s, flag.START⟩ with
      | ret x =>
        obtain ⟨⟨id, err⟩, p1⟩ := x
        simp only [hid] at h ⊢
        split_ifs at h ⊢ with h1 h2
        · exact h
        · exact h
        · exact ih _ _ _ _ h k
      | panic => simp [hid] at h
      | timeout => simp [hid] at h
    | END =>
      simp only [ParseLoop] at h ⊢
      cases hid : parseTime ⟨i, s, flag.END⟩ with
      | ret x =>
        obtain ⟨⟨id, err⟩, p1⟩ := x
        simp only [hid] at h ⊢
        split_ifs at h ⊢ with h1 h2
        · exact h
        · exact h
        · exact ih _ _ _ _ h k
      | panic => simp [hid] at h
      | timeout => simp [hid] at h
    | SUBS =>
      simp only [ParseLoop] at h ⊢
      cases hid : parseSubs ⟨i, s, flag.SUBS⟩ with
      | ret x =>
        obtain ⟨t, p1⟩ := x
        simp only [hid] at h ⊢
        split_ifs at h ⊢ with h1
        · exact ih _ _ _ _ h k
        · exact ih _ _ _ _ h k
      | panic => simp [hid] at h
      | timeout => simp [hid] at h

/-- Two budgets under which the loop of `Parse` returns give the same result. -/
theorem ParseLoop_fuel_irrelevant {n m : Nat} {p : Parser} {subs : List Subtitle} {cur : Subtitle}
    {r r' : (List Subtitle × Option error) × Parser}
    (h : ParseLoop n p subs cur = .ret r) (h' : ParseLoop m p subs cur = .ret r') : r = r' := by
  have h1 := ParseLoop_mono n p subs cur r h m
  have h2 := ParseLoop_mono m p subs cur r' h' n
  rw [Nat.add_comm] at h2
  rw [h1] at h2
  exact Exec.ret.inj h2

/-- The entries already collected stay at the front of the returned list. -/
theorem ParseLoop_append (pre : List Subtitle) :
    ∀ (n : Nat) (p : Parser) (subs : List Subtitle) (cur : Subtitle)
      (L : List Subtitle) (e : Option error) (q : Parser),
      ParseLoop n p subs cur = .ret ((L, e), q) →
      ParseLoop n p (pre ++ subs) cur = .ret ((pre ++ L, e), q) := by
  intro n
  induction n with
  | zero => intro p subs cur L e q h; simp [ParseLoop] at h
  | succ n ih =>
    intro p subs cur L e q h
    obtain ⟨i, s, f⟩ := p
    cases f with
    | EOF =>
      simp only [ParseLoop, Exec.ret.injEq, Prod.mk.injEq] at h ⊢
      obtain ⟨⟨h1, h2⟩, h3⟩ := h
      exact ⟨⟨by rw [h1], h2⟩, h3⟩
    | ID =>
      simp only [ParseLoop] at h ⊢
      cases hid : parseId ⟨i, s, flag.ID⟩ with
      | ret x =>
        obtain ⟨⟨id, err⟩, p1⟩ := x
        simp only [hid] at h ⊢
        split_ifs at h ⊢ with h1 h2
        · simp only [Exec.ret.injEq, Prod.mk.injEq] at h ⊢
          obtain ⟨⟨h1, h2⟩, h3⟩ := h
          exact ⟨⟨by rw [h1], h2⟩, h3⟩
        · simp only [Exec.ret.injEq, Prod.mk.injEq] at h ⊢
          obtain ⟨⟨h1, h2⟩, h3⟩ := h
          exact ⟨⟨by rw [h1], h2⟩, h3⟩
        · exact ih _ _ _ _ _ _ h
      | panic => simp [hid] at h
      | timeout => simp [hid] at h
    | START =>
      simp only [ParseLoop] at h ⊢
      cases hid : parseTime ⟨i, s, flag.START⟩ with
      | ret x =>
        obtain ⟨⟨id, err⟩, p1⟩ := x
        simp only [hid] at h ⊢
        split_ifs at h ⊢ with h1 h2
        · simp only [Exec.ret.injEq, Prod.mk.injEq] at h ⊢
          obtain ⟨⟨h1, h2⟩, h3⟩ := h
          exact ⟨⟨by rw [h1], h2⟩, h3⟩
        · simp only [Exec.ret.injEq, Prod.mk.injEq] at h ⊢
          obtain ⟨⟨h1, h2⟩, h3⟩ := h
          exact ⟨⟨by rw [h1], h2⟩, h3⟩
        · exact ih _ _ _ _ _ _ h
      | panic => simp [hid] at h
      | timeout => simp [hid] at h
    | END =>
      simp only [ParseLoop] at h ⊢
      cases hid : parseTime ⟨i, s, flag.END⟩ with
      | ret x =>
        obtain ⟨⟨id, err⟩, p1⟩ := x
        simp only [hid] at h ⊢
        split_ifs at h ⊢ with h1 h2
        · simp only [Exec.ret.injEq, Prod.mk.injEq] at h ⊢
          obtain ⟨⟨h1, h2⟩, h3⟩ := h
          exact ⟨⟨by rw [h1], h2⟩, h3⟩
        · simp only [Exec.ret.injEq, Prod.mk.injEq] at h ⊢
          obtain ⟨⟨h1, h2⟩, h3⟩ := h
          exact ⟨⟨by rw [h1], h2⟩, h3⟩
        · exact ih _ _ _ _ _ _ h
      | panic => simp [hid] at h
      | timeout => simp [hid] at h
    | SUBS =>
      simp only [ParseLoop] at h ⊢
      cases hid : parseSubs ⟨i, s, flag.SUBS⟩ with
      | ret x =>
        obtain ⟨t, p1⟩ := x
        simp only [hid] at h ⊢
        split_ifs at h ⊢ with h1
        · rw [List.append_assoc]
          exact ih _ _ _ _ _ _ h
        · rw [List.append_assoc]
          exact ih _ _ _ _ _ _ h
      | panic => simp [hid] at h
      | timeout => simp [hid] at h

/-! ## The parser only looks at the unread bytes and at the flag -/

theorem Same.length {p q : Parser} (h : Same p q) :
    p.Stream.length - p.NextIndex = q.Stream.length - q.NextIndex := by
  have := congrArg List.length h.1
  simpa using this

theorem Same.setFlag {p q : Parser} (h : Same p q) (f : flag) :
    Same { p with Flag := f } { q with Flag := f } := ⟨h.1, rfl⟩

theorem peek_same {p q : Parser} (h : Same p q) :
    ∃ b p1 q1, peek p = .ret (b, p1) ∧ peek q = .ret (b, q1) ∧ Same p1 q1 ∧
      p1.NextIndex = p.NextIndex ∧ q1.NextIndex = q.NextIndex := by
  obtain ⟨i, s, f⟩ := p
  obtain ⟨j, t, g⟩ := q
  obtain ⟨hd, hf⟩ := h
  simp only at hd hf
  subst hf
  rcases peek_cases i s f with ⟨b, rest, h1, hr1⟩ | ⟨h1, hr1⟩
  · exact ⟨b, _, _, hr1, peek_cons (hd ▸ h1), ⟨hd, rfl⟩, rfl, rfl⟩
  · exact ⟨0, _, _, hr1, peek_nil (hd ▸ h1), ⟨hd, rfl⟩, rfl, rfl⟩

theorem read_same {p q : Parser} (h : Same p q) :
    ∃ b p1 q1, read p = .ret (b, p1) ∧ read q = .ret (b, q1) ∧ Same p1 q1 := by
  obtain ⟨i, s, f⟩ := p
  obtain ⟨j, t, g⟩ := q
  obtain ⟨hd, hf⟩ := h
  simp only at hd hf
  subst hf
  rcases read_cases i s f with ⟨b, rest, h1, hr1⟩ | ⟨h1, hr1⟩
  · have h2 : t.drop j = b :: rest := hd ▸ h1
    exact ⟨b, _, _, hr1, read_cons h2, ⟨by simp only [drop_next h1, drop_next h2], rfl⟩⟩
  · have h2 : t.drop j = [] := hd ▸ h1
    have e1 : s.drop (i + 1) = [] := by
      rw [← List.drop_drop, h1]; rfl
    have e2 : t.drop (j + 1) = [] := by
      rw [← List.drop_drop, h2]; rfl
    exact ⟨0, _, _, hr1, read_nil h2, ⟨by simp only [e1, e2], rfl⟩⟩

theorem parseIdLoop_same :
    ∀ (fuel : Nat) (p q : Parser) (acc : List Nat), Same p q →
      SameRun (parseIdLoop fuel p acc) (parseIdLoop fuel q acc) := by
  intro fuel
  induction fuel with
  | zero => intro p q acc _; exact Or.inl ⟨rfl, rfl⟩
  | succ n ih =>
    intro p q acc h
    obtain ⟨b, p1, q1, hp, hq, h1⟩ := read_same h
    simp only [parseIdLoop, hp, hq, h1.2]
    split_ifs
    · exact ih p1 q1 _ h1
    · exact Or.inr ⟨_, _, _, rfl, rfl, h1⟩

theorem parseTimeLoop_same :
    ∀ (fuel : Nat) (p q : Parser) (acc : List Nat), Same p q →
      SameRun (parseTimeLoop fuel p acc) (parseTimeLoop fuel q acc) := by
  intro fuel
  induction fuel with
  | zero => intro p q acc _; exact Or.inl ⟨rfl, rfl⟩
  | succ n ih =>
    intro p q acc h
    obtain ⟨b, p1, q1, hp, hq, h1⟩ := read_same h
    simp only [parseTimeLoop, hp, hq, h1.2]
    split_ifs
    · exact ih p1 q1 _ h1
    · exact Or.inr ⟨_, _, _, rfl, rfl, h1⟩
    · exact ih p1 q1 _ h1
    · exact ih p1 q1 _ h1
    · exact Or.inr ⟨_, _, _, rfl, rfl, h1⟩

theorem parseSubsLoop_same :
    ∀ (fuel : Nat) (p q : Parser) (acc : List Nat), Same p q →
      SameRun (parseSubsLoop fuel p acc) (parseSubsLoop fuel q acc) := by
  intro fuel
  induction fuel with
  | zero => intro p q acc _; exact Or.inl ⟨rfl, rfl⟩
  | succ n ih =>
    intro p q acc h
    obtain ⟨b, p1, q1, hp, hq, h1⟩ := read_same h
    obtain ⟨c, p2, q2, hp2, hq2, h2, -, -⟩ := peek_same h1
    obtain ⟨d, p3, q3, hp3, hq3, h3⟩ := read_same h2
    simp only [parseSubsLoop, hp, hq, h1.2, hp2, hq2, hp3, hq3]
    split_ifs
    · exact Or.inr ⟨_, _, _, rfl, rfl, h3⟩
    · exact ih p2 q2 _ h2
    · exact ih p1 q1 _ h1
    · exact Or.inr ⟨_, _, _, rfl, rfl, h1⟩

theorem parseId_same {p q : Parser} (h : Same p q) :
    ∃ r p1 q1, parseId p = .ret (r, p1) ∧ parseId q = .ret (r, q1) ∧ Same p1 q1 := by
  obtain ⟨r0, p0, hp0, -⟩ := parseId_total p.NextIndex p.Stream p.Flag
  have hs := parseIdLoop_same (p.Stream.length - p.NextIndex + 1) p q [] h
  rw [h.length] at hs
  simp only [parseId] at hp0 ⊢
  rw [h.length] at hp0 ⊢
  rcases hs with ⟨h1, h2⟩ | ⟨out, p1, q1, h1, h2, h3⟩
  · rw [h1] at hp0; cases hp0
  · simp only [h1, h2]
    rcases bytesToInt (TrimSpace out) with ⟨a, _ | e⟩
    · exact ⟨_, p1, q1, rfl, rfl, h3⟩
    · exact ⟨_, p1, q1, rfl, rfl, h3⟩

theorem parseTime_same {p q : Parser} (h : Same p q) :
    ∃ r p1 q1, parseTime p = .ret (r, p1) ∧ parseTime q = .ret (r, q1) ∧ Same p1 q1 := by
  obtain ⟨r0, p0, hp0, -⟩ := parseTime_total p.NextIndex p.Stream p.Flag
  have hs := parseTimeLoop_same (p.Stream.length - p.NextIndex + 1) p q [] h
  rw [h.length] at hs
  simp only [parseTime] at hp0 ⊢
  rw [h.length] at hp0 ⊢
  rcases hs with ⟨h1, h2⟩ | ⟨out, p1, q1, h1, h2, h3⟩
  · rw [h1] at hp0; cases hp0
  · obtain ⟨r, hr⟩ := timeToTimestamp_total (TrimSpace out)
    simp only [h1, h2, hr]
    exact ⟨_, p1, q1, rfl, rfl, h3⟩

theorem parseSubs_same {p q : Parser} (h : Same p q) :
    ∃ r p1 q1, parseSubs p = .ret (r, p1) ∧ parseSubs q = .ret (r, q1) ∧ Same p1 q1 := by
  obtain ⟨r0, p0, hp0, -⟩ := parseSubs_total p.NextIndex p.Stream p.Flag
  have hs := parseSubsLoop_same (p.Stream.length - p.NextIndex + 1) p q [] h
  rw [h.length] at hs
  simp only [parseSubs] at hp0 ⊢
  rw [h.length] at hp0 ⊢
  rcases hs with ⟨h1, h2⟩ | ⟨out, p1, q1, h1, h2, h3⟩
  · rw [h1] at hp0; cases hp0
  · exact ⟨out, p1, q1, h1, h2, h3⟩

/-- The entries and the error returned by the loop of `Parse` depend on the
parser value only through its unread bytes and its flag. -/
theorem ParseLoop_same :
    ∀ (n : Nat) (p q : Parser) (subs : List Subtitle) (cur : Subtitle), Same p q →
      ∀ r p1, ParseLoop n p subs cur = .ret (r, p1) →
        ∃ q1, ParseLoop n q subs cur = .ret (r, q1) := by
  intro n
  induction n with
  | zero => intro p q subs cur _ r p1 h; simp [ParseLoop] at h
  | succ n ih =>
    intro p q subs cur hpq r p1 h
    have hflag : q.Flag = p.Flag := hpq.2.symm
    cases hf : p.Flag with
    | EOF =>
      simp only [ParseLoop, hflag, hf, Exec.ret.injEq, Prod.mk.injEq] at h ⊢
      exact ⟨q, h.1, rfl⟩
    | ID =>
      obtain ⟨⟨id, err⟩, p2, q2, hp, hq, h2⟩ := parseId_same hpq
      simp only [ParseLoop, hflag, hf, hp, hq, ← h2.2] at h ⊢
      split_ifs at h ⊢ with h1 h3
      · simp only [Exec.ret.injEq, Prod.mk.injEq] at h ⊢
        exact ⟨q2, h.1, rfl⟩
      · simp only [Exec.ret.injEq, Prod.mk.injEq] at h ⊢
        exact ⟨q2, h.1, rfl⟩
      · exact ih _ _ _ _ (h2.setFlag _) _ _ h
    | START =>
      obtain ⟨⟨id, err⟩, p2, q2, hp, hq, h2⟩ := parseTime_same hpq
      simp only [ParseLoop, hflag, hf, hp, hq, ← h2.2] at h ⊢
      split_ifs at h ⊢ with h1 h3
      · simp only [Exec.ret.injEq, Prod.mk.injEq] at h ⊢
        exact ⟨q2, h.1, rfl⟩
      · simp only [Exec.ret.injEq, Prod.mk.injEq] at h ⊢
        exact ⟨q2, h.1, rfl⟩
      · exact ih _ _ _ _ (h2.setFlag _) _ _ h
    | END =>
      obtain ⟨⟨id, err⟩, p2, q2, hp, hq, h2⟩ := parseTime_same hpq
      simp only [ParseLoop, hflag, hf, hp, hq, ← h2.2] at h ⊢
      split_ifs at h ⊢ with h1 h3
      · simp only [Exec.ret.injEq, Prod.mk.injEq] at h ⊢
        exact ⟨q2, h.1, rfl⟩
      · simp only [Exec.ret.injEq, Prod.mk.injEq] at h ⊢
        exact ⟨q2, h.1, rfl⟩
      · exact ih _ _ _ _ (h2.setFlag _) _ _ h
    | SUBS =>
      obtain ⟨t, p2, q2, hp, hq, h2⟩ := parseSubs_same hpq
      simp only [ParseLoop, hflag, hf, hp, hq, ← h2.2] at h ⊢
      split_ifs at h ⊢ with h1
      · exact ih _ _ _ _ (h2.setFlag _) _ _ h
      · exact ih _ _ _ _ h2 _ _ h

/-! ## Library functions on the tokens of a well-formed file -/

theorem stripLeading_of_none (ws : List (List Nat)) (fuel : Nat) (s : List Nat)
    (h : ws.find? (fun w => startsWith w s) = none) : stripLeading ws fuel s = s := by
  cases fuel with
  | zero => rfl
  | succ n => simp [stripLeading, h]

theorem stripLeading_drop (ws : List (List Nat)) :
    ∀ (fuel : Nat) (s : List Nat), ∃ k, stripLeading ws fuel s = s.drop k := by
  intro fuel
  induction fuel with
  | zero => intro s; exact ⟨0, rfl⟩
  | succ n ih =>
    intro s
    simp only [stripLeading]
    cases ws.find? (fun w => startsWith w s) with
    | none => exact ⟨0, rfl⟩
    | some w =>
      simp only
      split_ifs
      · exact ⟨0, rfl⟩
      · obtain ⟨k, hk⟩ := ih (s.drop w.length)
        exact ⟨w.length + k, by rw [hk, List.drop_drop]⟩

theorem whiteSpace_not_plain (a : Nat) (rest : List Nat) (ha : plainByte a = true) :
    whiteSpace.find? (fun w => startsWith w (a :: rest)) = none := by
  simp only [plainByte, Bool.and_eq_true, decide_eq_true_eq] at ha
  rw [List.find?_eq_none]
  intro w hw
  simp only [whiteSpace, List.mem_cons, List.mem_singleton, List.not_mem_nil, or_false] at hw
  rcases hw with rfl | rfl | rfl | rfl | rfl | rfl | rfl | rfl | rfl | rfl | rfl | rfl | rfl |
    rfl | rfl | rfl | rfl | rfl | rfl | rfl | rfl | rfl | rfl | rfl | rfl <;>
  · simp only [startsWith, Bool.and_eq_true, decide_eq_true_eq, not_and]
    omega

theorem whiteSpace_reverse_not_plain (a : Nat) (rest : List Nat) (ha : plainByte a = true) :
    (whiteSpace.map List.reverse).find? (fun w => startsWith w (a :: rest)) = none := by
  simp only [plainByte, Bool.and_eq_true, decide_eq_true_eq] at ha
  rw [List.find?_eq_none]
  intro w hw
  simp only [whiteSpace, List.map, List.reverse_cons, List.reverse_nil, List.nil_append,
    List.cons_append, List.mem_cons, List.mem_singleton, List.not_mem_nil, or_false] at hw
  rcases hw with rfl | rfl | rfl | rfl | rfl | rfl | rfl | rfl | rfl | rfl | rfl | rfl | rfl |
    rfl | rfl | rfl | rfl | rfl | rfl | rfl | rfl | rfl | rfl | rfl | rfl <;>
  · simp only [startsWith, Bool.and_eq_true, decide_eq_true_eq, not_and]
    omega

/-- `TrimSpace` leaves alone a token that begins and ends with a printable byte. -/
theorem TrimSpace_plain (s : List Nat) (h : ∀ b ∈ s, plainByte b = true) : TrimSpace s = s := by
  cases s with
  | nil => rfl
  | cons a rest =>
    have h1 : stripLeading whiteSpace (a :: rest).length (a :: rest) = a :: rest :=
      stripLeading_of_none _ _ _ (whiteSpace_not_plain a rest (h a (by simp)))
    simp only [TrimSpace, h1]
    have hne : (a :: rest).reverse ≠ [] := by simp
    obtain ⟨z, init, hz⟩ := List.exists_cons_of_ne_nil hne
    have hzmem : z ∈ a :: rest := by
      have : z ∈ (a :: rest).reverse := by rw [hz]; simp
      exact List.mem_reverse.mp this
    rw [hz, stripLeading_of_none _ _ _ (whiteSpace_reverse_not_plain z init (h z hzmem)), ← hz]
    simp

/-- `TrimSpace` returns a piece of its argument, hence the whole of it when no
byte was removed. -/
theorem TrimSpace_eq_of_length (s : List Nat) (h : (TrimSpace s).length = s.length) :
    TrimSpace s = s := by
  obtain ⟨k1, h1⟩ := stripLeading_drop whiteSpace s.length s
  obtain ⟨k2, h2⟩ := stripLeading_drop (whiteSpace.map List.reverse)
    (stripLeading whiteSpace s.length s).length (stripLeading whiteSpace s.length s).reverse
  simp only [TrimSpace] at h ⊢
  rw [h2] at h ⊢
  rw [h1] at h ⊢
  simp only [List.length_reverse, List.length_drop] at h
  by_cases hs : s.length = 0
  · have : s = [] := List.length_eq_zero.mp hs
    subst this
    simp
  · have hk1 : k1 = 0 := by omega
    have hk2 : k2 = 0 := by omega
    subst hk1 hk2
    simp

theorem isDigit_iff (b : Nat) : isDigit b = true ↔ 48 ≤ b ∧ b ≤ 57 := by
  simp [isDigit]

theorem plainByte_of_isDigit {b : Nat} (h : isDigit b = true) : plainByte b = true := by
  rw [isDigit_iff] at h
  simp only [plainByte, Bool.and_eq_true, decide_eq_true_eq]
  omega

/-- `Atoi` on a non-empty string of digits whose value fits in an `int`. -/
theorem Atoi_digits (ds : List Nat) (hne : ds ≠ []) (hd : ds.all isDigit = true)
    (hv : decimalValue ds < 2 ^ 63) : Atoi ds = .ok (decimalValue ds : Int) := by
  cases ds with
  | nil => exact absurd rfl hne
  | cons c rest =>
    have hc : isDigit c = true := by
      simp only [List.all_cons, Bool.and_eq_true] at hd
      exact hd.1
    rw [isDigit_iff] at hc
    have h45 : ¬ (c = 45 ∨ c = 43) := by omega
    have hc45 : ¬ c = 45 := by omega
    simp only [Atoi, if_neg h45, if_neg hc45, hd, if_pos hv]
    simp

theorem bytesToInt_digits (ds : List Nat) (hne : ds ≠ []) (hd : ds.all isDigit = true)
    (hv : decimalValue ds < 2 ^ 63) : bytesToInt ds = ((decimalValue ds : Int), none) := by
  simp [bytesToInt, Atoi_digits ds hne hd hv]

theorem bytesToInt_two (a b : Nat) (ha : isDigit a = true) (hb : isDigit b = true) :
    bytesToInt [a, b] = ((((a - 48) * 10 + (b - 48) : Nat) : Int), none) := by
  have hv : decimalValue [a, b] = (a - 48) * 10 + (b - 48) := by
    simp [decimalValue]
  have := bytesToInt_digits [a, b] (by simp) (by simp [ha, hb])
    (by rw [hv]; rw [isDigit_iff] at ha hb; omega)
  rw [this, hv]

/-- Only the eight bytes at offsets 0, 1, 3, 4, 6, 7, 10 and 11 are looked at. -/
theorem timeToTimestamp_digits (a b c1 c d c2 e f c3 g h k : Nat)
    (ha : isDigit a = true) (hb : isDigit b = true) (hc : isDigit c = true)
    (hd : isDigit d = true) (he : isDigit e = true) (hf : isDigit f = true)
    (hh : isDigit h = true) (hk : isDigit k = true) :
    timeToTimestamp [a, b, c1, c, d, c2, e, f, c3, g, h, k] =
      .ret (stampOf [a, b, c1, c, d, c2, e, f, c3, g, h, k], none) := by
  simp [timeToTimestamp, slice, stampOf, Timestamp.zero]
  rw [bytesToInt_two a b ha hb]
  simp only
  rw [bytesToInt_two c d hc hd]
  simp only
  rw [bytesToInt_two e f he hf]
  simp only
  rw [bytesToInt_two h k hh hk]
  simp

/-! ## One phase of `Parse` at a time -/

theorem drop_length_eq {s : List Nat} {i : Nat} {x : List Nat} (h : s.drop i = x) :
    s.length - i = x.length := by
  rw [← h, List.length_drop]

theorem ParseLoop_id {i : Nat} {s ds rest : List Nat} {id : Int} (n : Nat)
    (subs : List Subtitle) (cur : Subtitle) (h : s.drop i = ds ++ 10 :: rest)
    (h10 : ∀ b ∈ ds, b ≠ 10) (hid : bytesToInt (TrimSpace ds) = (id, none)) :
    ParseLoop (n + 1) ⟨i, s, flag.ID⟩ subs cur =
      ParseLoop n ⟨i + ds.length + 1, s, flag.START⟩ subs { cur with Id := id } := by
  have hlen := drop_length_eq h
  have hloop := parseIdLoop_line ds (s.length - i + 1) i s flag.ID [] rest h10 (by decide) h
    (by rw [hlen]; simp; omega)
  simp [ParseLoop, parseId, hloop, hid]

theorem ParseLoop_start {i : Nat} {s w rest : List Nat} {st : Timestamp} (n : Nat)
    (subs : List Subtitle) (cur : Subtitle) (h : s.drop i = w ++ 32 :: rest)
    (hw : ∀ b ∈ w, b ≠ 10 ∧ b ≠ 32)
    (hst : timeToTimestamp (TrimSpace (w.filter (fun b => !arrowByte b))) = .ret (st, none)) :
    ParseLoop (n + 1) ⟨i, s, flag.START⟩ subs cur =
      ParseLoop n ⟨i + w.length + 1, s, flag.END⟩ subs { cur with Start := st } := by
  have hlen := drop_length_eq h
  have hloop := parseTimeLoop_start w (s.length - i + 1) i s [] rest hw h
    (by rw [hlen]; simp; omega)
  simp [ParseLoop, parseTime, hloop, hst]

theorem ParseLoop_start_error {i : Nat} {s w rest : List Nat} {st : Timestamp} {e : error}
    (n : Nat) (subs : List Subtitle) (cur : Subtitle) (h : s.drop i = w ++ 32 :: rest)
    (hw : ∀ b ∈ w, b ≠ 10 ∧ b ≠ 32)
    (hst : timeToTimestamp (TrimSpace (w.filter (fun b => !arrowByte b))) = .ret (st, some e)) :
    ParseLoop (n + 1) ⟨i, s, flag.START⟩ subs cur =
      .ret ((subs, some e), ⟨i + w.length + 1, s, flag.START⟩) := by
  have hlen := drop_length_eq h
  have hloop := parseTimeLoop_start w (s.length - i + 1) i s [] rest hw h
    (by rw [hlen]; simp; omega)
  simp [ParseLoop, parseTime, hloop, hst]

theorem ParseLoop_end {i : Nat} {s w rest : List Nat} {en : Timestamp} (n : Nat)
    (subs : List Subtitle) (cur : Subtitle) (h : s.drop i = w ++ 10 :: rest)
    (hw : ∀ b ∈ w, b ≠ 10)
    (hen : timeToTimestamp (TrimSpace (w.filter (fun b => !arrowOrSpace b))) = .ret (en, none)) :
    ParseLoop (n + 1) ⟨i, s, flag.END⟩ subs cur =
      ParseLoop n ⟨i + w.length + 1, s, flag.SUBS⟩ subs { cur with End := en } := by
  have hlen := drop_length_eq h
  have hloop := parseTimeLoop_end w (s.length - i + 1) i s [] rest hw h
    (by rw [hlen]; simp; omega)
  simp [ParseLoop, parseTime, hloop, hen]

theorem ParseLoop_subs {i : Nat} {s t rest : List Nat} (n : Nat)
    (subs : List Subtitle) (cur : Subtitle) (h : s.drop i = t ++ 10 :: 10 :: rest)
    (ht : hasBlank (t ++ [10]) = false) :
    ParseLoop (n + 1) ⟨i, s, flag.SUBS⟩ subs cur =
      ParseLoop n ⟨i + t.length + 2, s, flag.ID⟩ (subs ++ [{ cur with Subs := t }])
        Subtitle.zero := by
  have hlen := drop_length_eq h
  have hloop := parseSubsLoop_blank t (s.length - i + 1) i s flag.SUBS [] rest ht (by decide) h
    (by rw [hlen]; simp; omega)
  simp [ParseLoop, parseSubs, hloop]

theorem ParseLoop_subs_eof {i : Nat} {s t : List Nat} (n : Nat)
    (subs : List Subtitle) (cur : Subtitle) (h : s.drop i = t) (ht : hasBlank t = false) :
    ParseLoop (n + 2) ⟨i, s, flag.SUBS⟩ subs cur =
      .ret ((subs ++ [{ cur with Subs := t }], none), ⟨i + t.length + 1, s, flag.EOF⟩) := by
  have hlen := drop_length_eq h
  have hloop := parseSubsLoop_eof t (s.length - i + 1) i s flag.SUBS [] ht (by decide) h
    (by rw [hlen]; omega)
  simp [ParseLoop, parseSubs, hloop]

/-- End of input met by `parseId` before any byte: the empty token does not
convert, and `Parse` returns that error with the list as it stands. -/
theorem ParseLoop_id_eof {i : Nat} {s : List Nat} (n : Nat) (subs : List Subtitle)
    (cur : Subtitle) (h : s.drop i = []) :
    ParseLoop (n + 1) ⟨i, s, flag.ID⟩ subs cur =
      .ret ((subs, some (error.New "error parsing Id")), ⟨i + 1, s, flag.EOF⟩) := by
  have h0 : TrimSpace [] = [] := rfl
  simp [ParseLoop, parseId, parseIdLoop, read_nil h, h0, bytesToInt, Atoi]

/-- End of input met by `parseTime` before any byte: the empty token has not
the length of a timestamp, and `Parse` returns that error. -/
theorem ParseLoop_start_eof {i : Nat} {s : List Nat} (n : Nat) (subs : List Subtitle)
    (cur : Subtitle) (h : s.drop i = []) :
    ParseLoop (n + 1) ⟨i, s, flag.START⟩ subs cur =
      .ret ((subs, some (error.New "time must have the following format: byte(hh:mm:ss,mss)")),
        ⟨i + 1, s, flag.EOF⟩) := by
  have h0 : TrimSpace [] = [] := rfl
  simp [ParseLoop, parseTime, parseTimeLoop, read_nil h, h0, timeToTimestamp, Timestamp.zero]

/-! ## Well-formed cue blocks -/

theorem timeToken_shape {t : List Nat} (h : timeToken t = true) :
    ∃ a b c d e f g h k, t = [a, b, 58, c, d, 58, e, f, 44, g, h, k] ∧
      isDigit a = true ∧ isDigit b = true ∧ isDigit c = true ∧ isDigit d = true ∧
      isDigit e = true ∧ isDigit f = true ∧ isDigit g = true ∧ isDigit h = true ∧
      isDigit k = true := by
  rcases t with _ | ⟨a, _ | ⟨b, _ | ⟨c1, _ | ⟨c, _ | ⟨d, _ | ⟨c2, _ | ⟨e, _ | ⟨f, _ | ⟨c3,
    _ | ⟨g, _ | ⟨h1, _ | ⟨k, _ | ⟨x, t⟩⟩⟩⟩⟩⟩⟩⟩⟩⟩⟩⟩⟩
  all_goals first
    | (simp [timeToken] at h; done)
    | skip
  simp only [timeToken, Bool.and_eq_true, decide_eq_true_eq] at h
  obtain ⟨⟨⟨⟨⟨⟨⟨⟨⟨⟨⟨ha, hb⟩, rfl⟩, hc⟩, hd⟩, rfl⟩, he⟩, hf⟩, rfl⟩, hg⟩, hh⟩, hk⟩ := h
  exact ⟨a, b, c, d, e, f, g, h1, k, rfl, ha, hb, hc, hd, he, hf, hg, hh, hk⟩

theorem timeToken_bytes {t : List Nat} (h : timeToken t = true) :
    ∀ x ∈ t, isDigit x = true ∨ x = 58 ∨ x = 44 := by
  obtain ⟨a, b, c, d, e, f, g, h1, k, rfl, ha, hb, hc, hd, he, hf, hg, hh, hk⟩ := timeToken_shape h
  intro x hx
  simp only [List.mem_cons, List.mem_singleton, List.not_mem_nil, or_false] at hx
  rcases hx with rfl | rfl | rfl | rfl | rfl | rfl | rfl | rfl | rfl | rfl | rfl | rfl <;>
    simp [*]

theorem token_byte_facts {x : Nat} (h : isDigit x = true ∨ x = 58 ∨ x = 44) :
    x ≠ 10 ∧ x ≠ 32 ∧ arrowByte x = false ∧ arrowOrSpace x = false ∧ plainByte x = true := by
  rw [isDigit_iff] at h
  simp only [arrowByte, arrowOrSpace, plainByte, Bool.or_eq_false_iff, decide_eq_false_iff_not,
    Bool.and_eq_true, decide_eq_true_eq]
  omega

theorem filter_eq_self_of {p : Nat → Bool} {t : List Nat} (h : ∀ x ∈ t, p x = true) :
    t.filter p = t := List.filter_eq_self.mpr h

theorem timeToken_parse {t : List Nat} (h : timeToken t = true) :
    timeToTimestamp (TrimSpace t) = .ret (stampOf t, none) := by
  have hb := timeToken_bytes h
  rw [TrimSpace_plain t (fun x hx => (token_byte_facts (hb x hx)).2.2.2.2)]
  obtain ⟨a, b, c, d, e, f, g, h1, k, rfl, ha, hb, hc, hd, he, hf, hg, hh, hk⟩ := timeToken_shape h
  exact timeToTimestamp_digits a b 58 c d 58 e f 44 g h1 k ha hb hc hd he hf hh hk

theorem renderLines_eq (ls : List (List Nat)) (h : ls ≠ []) :
    renderLines ls = joinLines ls ++ [10] := by
  induction ls with
  | nil => exact absurd rfl h
  | cons l ls ih =>
    cases ls with
    | nil => simp [renderLines, joinLines]
    | cons l2 ls =>
      simp only [renderLines, joinLines, List.append_assoc, List.cons_append] at ih ⊢
      rw [ih (by simp)]

theorem hasBlank_line (l : List Nat) (hl : textLine l = true) (X : List Nat)
    (hX : X.head? ≠ some 10) (hb : hasBlank X = false) :
    hasBlank (l ++ 10 :: X) = false ∧ (l ++ 10 :: X).head? ≠ some 10 := by
  simp only [textLine, Bool.and_eq_true, decide_eq_true_eq, List.all_eq_true] at hl
  obtain ⟨hne, h10⟩ := hl
  induction l with
  | nil => exact absurd rfl hne
  | cons a l ih =>
    have ha : a ≠ 10 := h10 a (by simp)
    refine ⟨?_, by simp [ha]⟩
    cases l with
    | nil =>
      have : (decide (X.head? = some 10)) = false := by simpa using hX
      simp [hasBlank, ha, hb, this]
    | cons b l =>
      have := (ih (by simp) (fun x hx => h10 x (by simp [hx]))).1
      simp only [List.cons_append, hasBlank, Bool.or_eq_false_iff] at this ⊢
      exact ⟨by simp [ha], this⟩

theorem hasBlank_joinLines (ls : List (List Nat)) (h : ls ≠ [])
    (hl : ls.all textLine = true) :
    hasBlank (joinLines ls ++ [10]) = false ∧ (joinLines ls ++ [10]).head? ≠ some 10 := by
  induction ls with
  | nil => exact absurd rfl h
  | cons l ls ih =>
    simp only [List.all_cons, Bool.and_eq_true] at hl
    cases ls with
    | nil =>
      simpa [joinLines] using hasBlank_line l hl.1 [] (by simp) rfl
    | cons l2 ls =>
      obtain ⟨h1, h2⟩ := ih (by simp) hl.2
      have := hasBlank_line l hl.1 (joinLines (l2 :: ls) ++ [10]) h2 h1
      simpa [joinLines] using this

/-- The four phases of `Parse` over one well-formed cue block. -/
theorem ParseLoop_cue {i : Nat} {s rest : List Nat} (c : Cue) (hc : c.wellFormed = true)
    (n : Nat) (subs : List Subtitle) (cur : Subtitle) (h : s.drop i = c.render ++ rest) :
    ParseLoop (n + 4) ⟨i, s, flag.ID⟩ subs cur =
      ParseLoop n ⟨i + c.render.length, s, flag.ID⟩ (subs ++ [c.entry]) Subtitle.zero := by
  simp only [Cue.wellFormed, Bool.and_eq_true, decide_eq_true_eq] at hc
  obtain ⟨⟨⟨⟨⟨⟨hne, hdig⟩, hval⟩, hstart⟩, hstop⟩, hlne⟩, hlines⟩ := hc
  have hsb := timeToken_bytes hstart
  have heb := timeToken_bytes hstop
  have hidx10 : ∀ b ∈ c.index, b ≠ 10 := by
    intro b hb
    have := (isDigit_iff b).mp (List.all_eq_true.mp hdig b hb)
    omega
  have hidp : ∀ b ∈ c.index, plainByte b = true :=
    fun b hb => plainByte_of_isDigit (List.all_eq_true.mp hdig b hb)
  have hid : bytesToInt (TrimSpace c.index) = ((decimalValue c.index : Int), none) := by
    rw [TrimSpace_plain _ hidp]
    exact bytesToInt_digits _ hne hdig hval
  -- the shape of the unread bytes at each phase
  have e1 : s.drop i = c.index ++ 10 ::
      (c.start ++ 32 :: ([45, 45, 62, 32] ++ c.stop ++ 10 ::
        (joinLines c.lines ++ 10 :: 10 :: rest))) := by
    rw [h, Cue.render, renderLines_eq _ hlne]
    simp [arrow]
  have e2 := drop_add_append (w := c.index ++ [10]) (by simpa using e1)
  have e2' : s.drop (i + c.index.length + 1) = c.start ++ 32 :: ([45, 45, 62, 32] ++ c.stop ++
      10 :: (joinLines c.lines ++ 10 :: 10 :: rest)) := by
    simpa [Nat.add_assoc] using e2
  have e3 := drop_add_append (w := c.start ++ [32]) (by simpa using e2')
  have e3' : s.drop (i + c.index.length + 1 + c.start.length + 1) =
      ([45, 45, 62, 32] ++ c.stop) ++ 10 :: (joinLines c.lines ++ 10 :: 10 :: rest) := by
    simpa [Nat.add_assoc] using e3
  have e4 := drop_add_append (w := ([45, 45, 62, 32] ++ c.stop) ++ [10]) (by simpa using e3')
  have e4' : s.drop (i + c.index.length + 1 + c.start.length + 1 +
      ([45, 45, 62, 32] ++ c.stop).length + 1) = joinLines c.lines ++ 10 :: 10 :: rest := by
    simpa [Nat.add_assoc] using e4
  have hst : timeToTimestamp (TrimSpace (c.start.filter (fun b => !arrowByte b))) =
      .ret (stampOf c.start, none) := by
    rw [filter_eq_self_of (fun x hx => by simp [(token_byte_facts (hsb x hx)).2.2.1])]
    exact timeToken_parse hstart
  have hen : timeToTimestamp (TrimSpace
      (([45, 45, 62, 32] ++ c.stop).filter (fun b => !arrowOrSpace b))) =
      .ret (stampOf c.stop, none) := by
    have : ([45, 45, 62, 32] ++ c.stop).filter (fun b => !arrowOrSpace b) = c.stop := by
      rw [List.filter_append,
        filter_eq_self_of (t := c.stop)
          (fun x hx => by simp [(token_byte_facts (heb x hx)).2.2.2.1])]
      rfl
    rw [this]
    exact timeToken_parse hstop
  rw [show n + 4 = (n + 3) + 1 by rfl, ParseLoop_id (n + 3) subs cur e1 hidx10 hid]
  rw [show n + 3 = (n + 2) + 1 by rfl, ParseLoop_start (n + 2) subs _ e2'
    (fun b hb => ⟨(token_byte_facts (hsb b hb)).1, (token_byte_facts (hsb b hb)).2.1⟩) hst]
  rw [show n + 2 = (n + 1) + 1 by rfl, ParseLoop_end (n + 1) subs _ e3' (by
    intro b hb
    rcases List.mem_append.mp hb with hb | hb
    · simp only [List.mem_cons, List.mem_singleton, List.not_mem_nil, or_false] at hb
      omega
    · exact (token_byte_facts (heb b hb)).1) hen]
  rw [ParseLoop_subs n subs _ e4' (hasBlank_joinLines _ hlne hlines).1]
  have hlen : i + c.index.length + 1 + c.start.length + 1 +
      ([45, 45, 62, 32] ++ c.stop).length + 1 + (joinLines c.lines).length + 2 =
      i + c.render.length := by
    rw [Cue.render, renderLines_eq _ hlne]
    simp [arrow]
    omega
  rw [hlen]
  rfl

theorem ParseLoop_cues (cs : List Cue) :
    ∀ (i : Nat) (s rest : List Nat) (n : Nat) (subs : List Subtitle),
      (∀ c ∈ cs, c.wellFormed = true) → s.drop i = renderCues cs ++ rest →
      ParseLoop (n + 4 * cs.length) ⟨i, s, flag.ID⟩ subs Subtitle.zero =
        ParseLoop n ⟨i + (renderCues cs).length, s, flag.ID⟩ (subs ++ cs.map Cue.entry)
          Subtitle.zero := by
  induction cs with
  | nil => intro i s rest n subs _ _; simp [renderCues]
  | cons c cs ih =>
    intro i s rest n subs hwf h
    have h1 : s.drop i = c.render ++ (renderCues cs ++ rest) := by
      simpa [renderCues] using h
    rw [show n + 4 * (c :: cs).length = (n + 4 * cs.length) + 4 by simp; omega,
      ParseLoop_cue c (hwf c (by simp)) _ subs _ h1,
      ih _ s rest n _ (fun c hc => hwf c (by simp [hc])) (drop_add_append h1)]
    simp [renderCues, Nat.add_assoc]

theorem parseBuffer_total (stream : List Nat) : ∃ L e, parseBuffer stream = .ret (L, e) := by
  obtain ⟨⟨⟨L, e⟩, q⟩, hq⟩ :=
    ParseLoop_total (stream.length + 2) 0 stream flag.ID [] Subtitle.zero (by omega)
  exact ⟨L, e, by simp [parseBuffer, Parser.Parse, NewParser, hq]⟩

theorem parseBuffer_of_loop {stream : List Nat} {n : Nat} {L : List Subtitle}
    {e : Option error} {q : Parser}
    (h : ParseLoop n ⟨0, stream, flag.ID⟩ [] Subtitle.zero = .ret ((L, e), q)) :
    parseBuffer stream = .ret (L, e) := by
  obtain ⟨r, hr⟩ :=
    ParseLoop_total (stream.length + 2) 0 stream flag.ID [] Subtitle.zero (by omega)
  have := ParseLoop_fuel_irrelevant h hr
  subst this
  simp [parseBuffer, Parser.Parse, NewParser, hr]

/-- Well-formed cue blocks in front of any bytes: their entries come first,
followed by whatever `Parse` makes of the remaining bytes, error included. -/
theorem parseBuffer_cues (cs : List Cue) (hwf : ∀ c ∈ cs, c.wellFormed = true)
    (rest : List Nat) :
    parseBuffer (renderCues cs ++ rest) = withEntries (cs.map Cue.entry) (parseBuffer rest) := by
  obtain ⟨⟨⟨L, e⟩, q⟩, hq⟩ :=
    ParseLoop_total (rest.length + 2) 0 rest flag.ID [] Subtitle.zero (by omega)
  have hrest : parseBuffer rest = .ret (L, e) := parseBuffer_of_loop hq
  have hsame : Same ⟨0, rest, flag.ID⟩
      ⟨0 + (renderCues cs).length, renderCues cs ++ rest, flag.ID⟩ := by
    refine ⟨?_, rfl⟩
    simp
  obtain ⟨q1, hq1⟩ := ParseLoop_same _ _ _ [] Subtitle.zero hsame _ _ hq
  have h2 := ParseLoop_append (cs.map Cue.entry) _ _ _ _ _ _ _ hq1
  have h3 := ParseLoop_cues cs 0 (renderCues cs ++ rest) rest (rest.length + 2) [] hwf (by simp)
  rw [List.nil_append] at h3
  rw [List.append_nil] at h2
  rw [← h3] at h2
  rw [parseBuffer_of_loop h2, hrest]
  rfl

/-! ## Tokens that `timeToTimestamp` rejects -/

/-- A two-byte field whose second byte is not a digit, or whose first byte is
neither a digit nor a sign, does not convert. -/
theorem bytesToInt_two_bad (x y : Nat)
    (h : isDigit y = false ∨ (isDigit x = false ∧ x ≠ 43 ∧ x ≠ 45)) :
    ∃ e, bytesToInt [x, y] = (0, some e) := by
  by_cases hs : x = 45 ∨ x = 43
  · have hy : isDigit y = false := by
      rcases h with h | h
      · exact h
      · rcases hs with hs | hs
        · exact absurd hs h.2.2
        · exact absurd hs h.2.1
    exact ⟨error.ErrSyntax, by simp [bytesToInt, Atoi, hs, hy]⟩
  · have hxy : (isDigit x && isDigit y) = false := by
      rcases h with h | h
      · simp [h]
      · simp [h.1]
    have hxy' : isDigit x = true → isDigit y = false := by
      simpa using hxy
    refine ⟨error.ErrSyntax, ?_⟩
    simp only [bytesToInt, Atoi, hs, if_false, List.all_cons, List.all_nil, Bool.and_true]
    rw [if_pos (Or.inr hxy)]

/-- The four fields that must convert for a 12-byte token to be accepted. -/
theorem timeToTimestamp_fields (a b c1 c d c2 e f c3 g h k : Nat) (ts : Timestamp)
    (hok : timeToTimestamp [a, b, c1, c, d, c2, e, f, c3, g, h, k] = .ret (ts, none)) :
    (bytesToInt [a, b]).2 = none ∧ (bytesToInt [c, d]).2 = none ∧
      (bytesToInt [e, f]).2 = none ∧ (bytesToInt [h, k]).2 = none := by
  simp [timeToTimestamp, slice] at hok
  rcases h1 : bytesToInt [a, b] with ⟨v1, _ | e1⟩ <;> rw [h1] at hok <;> simp only at hok
  · rcases h2 : bytesToInt [c, d] with ⟨v2, _ | e2⟩ <;> rw [h2] at hok <;> simp only at hok
    · rcases h3 : bytesToInt [e, f] with ⟨v3, _ | e3⟩ <;> rw [h3] at hok <;> simp only at hok
      · rcases h4 : bytesToInt [h, k] with ⟨v4, _ | e4⟩ <;> rw [h4] at hok <;> simp only at hok
        · exact ⟨rfl, rfl, rfl, rfl⟩
        · simp at hok
      · simp at hok
    · simp at hok
  · simp at hok

theorem timeToTimestamp_bad (t : List Nat) (hlen : t.length = 12) (h45 : ∀ b ∈ t, b ≠ 45)
    (hbad : badField t) : ∃ ts e, timeToTimestamp t = .ret (ts, some e) := by
  obtain ⟨⟨ts, err⟩, hr⟩ := timeToTimestamp_total t
  cases err with
  | some e => exact ⟨ts, e, hr⟩
  | none =>
    exfalso
    rcases t with _ | ⟨a, _ | ⟨b, _ | ⟨c1, _ | ⟨c, _ | ⟨d, _ | ⟨c2, _ | ⟨e, _ | ⟨f, _ | ⟨c3,
      _ | ⟨g, _ | ⟨h1, _ | ⟨k, _ | ⟨x, t⟩⟩⟩⟩⟩⟩⟩⟩⟩⟩⟩⟩⟩ <;> simp at hlen
    obtain ⟨f1, f2, f3, f4⟩ := timeToTimestamp_fields a b c1 c d c2 e f c3 g h1 k ts hr
    have ha := h45 a (by simp)
    have hc := h45 c (by simp)
    have he := h45 e (by simp)
    have hh := h45 h1 (by simp)
    have key : ∀ x y, (bytesToInt [x, y]).2 = none →
        ¬ (isDigit y = false ∨ (isDigit x = false ∧ x ≠ 43 ∧ x ≠ 45)) := by
      intro x y hn hb
      obtain ⟨e, he⟩ := bytesToInt_two_bad x y hb
      rw [he] at hn
      cases hn
    have k1 := key a b f1
    have k2 := key c d f2
    have k3 := key e f f3
    have k4 := key h1 k f4
    simp only [not_or, not_and, Bool.not_eq_false] at k1 k2 k3 k4
    rcases hbad with ⟨j, hj, hd⟩ | ⟨j, hj, hd, hp⟩
    · simp only [List.mem_cons, List.mem_singleton, List.not_mem_nil, or_false] at hj
      rcases hj with rfl | rfl | rfl | rfl <;> simp at hd
      · rw [k1.1] at hd; cases hd
      · rw [k2.1] at hd; cases hd
      · rw [k3.1] at hd; cases hd
      · rw [k4.1] at hd; cases hd
    · simp only [List.mem_cons, List.mem_singleton, List.not_mem_nil, or_false] at hj
      rcases hj with rfl | rfl | rfl | rfl <;> simp at hd hp
      · exact (k1.2 hd hp) ha
      · exact (k2.2 hd hp) hc
      · exact (k3.2 hd hp) he
      · exact (k4.2 hd hp) hh

/-- The loop of `parseTime` over a line without any space, whatever the flag:
only the arrow bytes are dropped. -/
theorem parseTimeLoop_nospace (w : List Nat) :
    ∀ (fuel i : Nat) (s : List Nat) (f : flag) (acc rest : List Nat),
      (∀ b ∈ w, b ≠ 10 ∧ b ≠ 32) → f ≠ flag.EOF → s.drop i = w ++ 10 :: rest →
      w.length < fuel →
      parseTimeLoop fuel ⟨i, s, f⟩ acc =
        .ret (acc ++ w.filter (fun b => !arrowByte b), ⟨i + w.length + 1, s, f⟩) := by
  induction w with
  | nil =>
    intro fuel i s f acc rest _ hf h hfuel
    obtain ⟨n, rfl⟩ : ∃ n, fuel = n + 1 := ⟨fuel - 1, by simp at hfuel; omega⟩
    simp [parseTimeLoop, read_cons (by simpa using h : s.drop i = 10 :: rest)]
  | cons d w ih =>
    intro fuel i s f acc rest hd hf h hfuel
    obtain ⟨n, rfl⟩ : ∃ n, fuel = n + 1 := ⟨fuel - 1, by simp at hfuel; omega⟩
    have h1 : s.drop i = d :: (w ++ 10 :: rest) := by simpa using h
    have hd10 : d ≠ 10 ∧ d ≠ 32 := hd d (by simp)
    have hrec := fun acc => ih n (i + 1) s f acc rest (fun b hb => hd b (by simp [hb])) hf
      (drop_next h1) (by simp at hfuel; omega)
    simp only [parseTimeLoop, read_cons h1]
    rw [if_pos ⟨hd10.1, hf⟩]
    by_cases ha : d = 45 ∨ d = 62
    · rw [if_pos ha, hrec]
      have : arrowByte d = true := by rcases ha with rfl | rfl <;> decide
      simp [this, Nat.add_assoc, Nat.add_comm 1]
    · rw [if_neg ha, if_neg hd10.2, hrec]
      have : arrowByte d = false := by
        simp only [arrowByte, Bool.or_eq_false_iff, decide_eq_false_iff_not]
        exact ⟨fun h => ha (Or.inl h), fun h => ha (Or.inr h)⟩
      simp [this, Nat.add_assoc, Nat.add_comm 1]

theorem ParseLoop_start_line_error {i : Nat} {s w rest : List Nat} {st : Timestamp} {e : error}
    (n : Nat) (subs : List Subtitle) (cur : Subtitle) (h : s.drop i = w ++ 10 :: rest)
    (hw : ∀ b ∈ w, b ≠ 10 ∧ b ≠ 32)
    (hst : timeToTimestamp (TrimSpace (w.filter (fun b => !arrowByte b))) = .ret (st, some e)) :
    ParseLoop (n + 1) ⟨i, s, flag.START⟩ subs cur =
      .ret ((subs, some e), ⟨i + w.length + 1, s, flag.START⟩) := by
  have hlen := drop_length_eq h
  have hloop := parseTimeLoop_nospace w (s.length - i + 1) i s flag.START [] rest hw (by decide) h
    (by rw [hlen]; simp; omega)
  simp [ParseLoop, parseTime, hloop, hst]

theorem indexToken_parse {ds : List Nat} (h : indexToken ds = true) :
    (∀ b ∈ ds, b ≠ 10) ∧ bytesToInt (TrimSpace ds) = ((decimalValue ds : Int), none) := by
  simp only [indexToken, Bool.and_eq_true, decide_eq_true_eq] at h
  obtain ⟨⟨hne, hdig⟩, hval⟩ := h
  constructor
  · intro b hb
    have := (isDigit_iff b).mp (List.all_eq_true.mp hdig b hb)
    omega
  · rw [TrimSpace_plain _ (fun b hb => plainByte_of_isDigit (List.all_eq_true.mp hdig b hb))]
    exact bytesToInt_digits _ hne hdig hval

/-! ## The claims -/

/-- Claim C1. For a buffer made of well-formed LF-terminated cue blocks, `Parse`
returns as many entries as there are blocks, in source order, the entry of each
block holding the value of its index and its text lines joined by line feeds. -/
theorem C1_wellformed_blocks_entries (cs : List Cue) (hwf : ∀ c ∈ cs, c.wellFormed = true) :
    ∃ entries err, parseBuffer (renderCues cs) = .ret (entries, err) ∧
      entries.length = cs.length ∧
      entries.map Subtitle.Id = cs.map (fun c => (decimalValue c.index : Int)) ∧
      entries.map Subtitle.Subs = cs.map (fun c => joinLines c.lines) := by
  have h := parseBuffer_cues cs hwf []
  have h0 : parseBuffer [] = .ret ([], some (error.New "error parsing Id")) := by decide
  rw [List.append_nil, h0] at h
  refine ⟨cs.map Cue.entry ++ [], _, h, by simp, ?_, ?_⟩
  · simp [Cue.entry]
  · simp [Cue.entry]

/-- The statement of C1 at the two cues `cueOne`, `cueTwo`. -/
theorem C1_wellformed_blocks_entries_witness :
    ∃ entries err, parseBuffer (renderCues [cueOne, cueTwo]) = .ret (entries, err) ∧
      entries.length = [cueOne, cueTwo].length ∧
      entries.map Subtitle.Id = [cueOne, cueTwo].map (fun c => (decimalValue c.index : Int)) ∧
      entries.map Subtitle.Subs = [cueOne, cueTwo].map (fun c => joinLines c.lines) :=
  C1_wellformed_blocks_entries [cueOne, cueTwo] (by decide)

/-- Claim C2, at the token `00:00:01,500`: `timeToTimestamp` accepts it and
returns 0 milliseconds, because the field is sliced from offset 10 and not 9;
re-rendered with widths 2, 2, 2 and 3 the result is not the token. -/
theorem C2_milliseconds_lose_first_digit :
    timeToTimestamp (bytes "00:00:01,500") = .ret (⟨0, 0, 1, 0⟩, none) ∧
      renderStamp ⟨0, 0, 1, 0⟩ = bytes "00:00:01,000" ∧
      renderStamp ⟨0, 0, 1, 0⟩ ≠ bytes "00:00:01,500" := by
  decide

/-- End of input met in state `ID` before any byte of the index: the loop of
`Parse` returns the list as it stands with the error `error parsing Id`, and so
does `Parse` on any well-formed cue blocks whose last blank line ends the
buffer. -/
theorem parseBuffer_cues_end_in_state_id (cs : List Cue)
    (hwf : ∀ c ∈ cs, c.wellFormed = true) :
    parseBuffer (renderCues cs) =
        .ret (cs.map Cue.entry, some (error.New "error parsing Id")) ∧
      ∀ (n i : Nat) (s : List Nat) (subs : List Subtitle) (cur : Subtitle), s.length ≤ i →
        ParseLoop (n + 1) ⟨i, s, flag.ID⟩ subs cur =
          .ret ((subs, some (error.New "error parsing Id")), ⟨i + 1, s, flag.EOF⟩) := by
  constructor
  · have h := parseBuffer_cues cs hwf []
    have h0 : parseBuffer [] = .ret ([], some (error.New "error parsing Id")) := by decide
    rw [List.append_nil, h0] at h
    simpa [withEntries] using h
  · intro n i s subs cur hle
    exact ParseLoop_id_eof n subs cur (List.drop_eq_nil_iff.mpr hle)

/-- Claim C3, at the empty buffer and at one cue block whose blank line ends the
buffer: end of input is met in state `ID` with no byte read for the index, and
`Parse` returns the error `error parsing Id` (with the entries collected so
far) where the claim says nil; the same block without its blank line, where
end of input is met by `parseSubs`, gives the nil error. -/
theorem C3_blank_line_at_end_is_error :
    parseBuffer [] = .ret ([], some (error.New "error parsing Id")) ∧
      parseBuffer (bytes "1\n00:00:01,000 --> 00:00:02,000\nhi\n\n") =
        .ret ([⟨1, ⟨0, 0, 1, 0⟩, ⟨0, 0, 2, 0⟩, bytes "hi"⟩],
          some (error.New "error parsing Id")) ∧
      parseBuffer (bytes "1\n00:00:01,000 --> 00:00:02,000\nhi\n") =
        .ret ([⟨1, ⟨0, 0, 1, 0⟩, ⟨0, 0, 2, 0⟩, bytes "hi\n"⟩], none) := by
  decide

/-- Claim C4 fails: a good block followed by the index line `x` gives the error
`error parsing Id` together with the entry of the good block. -/
theorem C4_counterexample_partial_list :
    parseBuffer (bytes "1\n00:00:01,000 --> 00:00:02,000\nhi\n\nx\n") =
      .ret ([⟨1, ⟨0, 0, 1, 0⟩, ⟨0, 0, 2, 0⟩, bytes "hi"⟩],
        some (error.New "error parsing Id")) := by
  decide

/-- Claim C4, amended. The entries of the cue blocks completed before the
failure point are returned with the error: when `Parse` returns the list `L`
and the error `e` on some bytes, it returns, on well-formed cue blocks followed
by these bytes, the entries of the blocks followed by `L`, and the same `e`. -/
theorem C4_entries_before_failure_returned (cs : List Cue)
    (hwf : ∀ c ∈ cs, c.wellFormed = true) (rest : List Nat) (L : List Subtitle) (e : error)
    (h : parseBuffer rest = .ret (L, some e)) :
    parseBuffer (renderCues cs ++ rest) = .ret (cs.map Cue.entry ++ L, some e) := by
  rw [parseBuffer_cues cs hwf rest, h]
  rfl

/-- The amended C4 at two good cues followed by the index line `x`. -/
theorem C4_entries_before_failure_returned_witness :
    parseBuffer (renderCues [cueOne, cueTwo] ++ bytes "x\n") =
      .ret ([cueOne, cueTwo].map Cue.entry ++ [], some (error.New "error parsing Id")) :=
  C4_entries_before_failure_returned [cueOne, cueTwo] (by decide) (bytes "x\n") []
    (error.New "error parsing Id") (by decide)

/-- Claim C5. No byte buffer makes `Parse` panic: `peek` and `read` return on
every parser value, `timeToTimestamp` returns on every token, and `Parse`
started at cursor 0 in state `ID` returns a list and an error value. -/
theorem C5_parse_never_panics :
    (∀ p : Parser, ∃ r, peek p = .ret r) ∧ (∀ p : Parser, ∃ r, read p = .ret r) ∧
      (∀ time : List Nat, ∃ r, timeToTimestamp time = .ret r) ∧
      ∀ stream : List Nat, ∃ L e q, (NewParser stream).Parse = .ret ((L, e), q) := by
  refine ⟨?_, ?_, timeToTimestamp_total, ?_⟩
  · rintro ⟨i, s, f⟩
    rcases peek_cases i s f with ⟨b, rest, -, h⟩ | ⟨-, h⟩ <;> exact ⟨_, h⟩
  · rintro ⟨i, s, f⟩
    rcases read_cases i s f with ⟨b, rest, -, h⟩ | ⟨-, h⟩ <;> exact ⟨_, h⟩
  · intro stream
    obtain ⟨⟨⟨L, e⟩, q⟩, hq⟩ :=
      ParseLoop_total (stream.length + 2) 0 stream flag.ID [] Subtitle.zero (by omega)
    exact ⟨L, e, q, hq⟩

/-- Claim C6, at the buffer of the specification: the text of the entry is one
line feed, not the empty string, and when a second block follows, it is taken
into the text of the first entry instead of being parsed. -/
theorem C6_empty_text_block :
    parseBuffer (bytes "1\n00:00:01,000 --> 00:00:02,000\n\n") =
        .ret ([⟨1, ⟨0, 0, 1, 0⟩, ⟨0, 0, 2, 0⟩, bytes "\n"⟩], none) ∧
      parseBuffer (bytes "1\n00:00:01,000 --> 00:00:02,000\n\n2\n00:00:03,000 --> 00:00:04,000\nb\n\n") =
        .ret ([⟨1, ⟨0, 0, 1, 0⟩, ⟨0, 0, 2, 0⟩,
          bytes "\n2\n00:00:03,000 --> 00:00:04,000\nb"⟩],
          some (error.New "error parsing Id")) := by
  decide

/-- Claim C7 fails on the timing line of the specification: with `;` in place
of `,` the block is accepted, an entry is returned and the error is nil. -/
theorem C7_counterexample_semicolon :
    parseBuffer (bytes "1\n00:00:01;000 --> 00:00:02,000\nhi") =
      .ret ([⟨1, ⟨0, 0, 1, 0⟩, ⟨0, 0, 2, 0⟩, bytes "hi"⟩], none) := by
  decide

/-- Claim C7, amended. After any well-formed cue blocks and an index line, a
12-byte start token (free of line feed, space, `-` and `>`) in which a byte at
offset 1, 4, 7 or 11 is not a digit, or a byte at offset 0, 3, 6 or 10 is
neither a digit nor `+`, makes `Parse` return an error and no entry for the
block: the list holds the entries of the earlier blocks only. -/
theorem C7_bad_digit_in_start_token (cs : List Cue) (hwf : ∀ c ∈ cs, c.wellFormed = true)
    (idx t rest : List Nat) (hidx : indexToken idx = true) (hlen : t.length = 12)
    (hbytes : ∀ b ∈ t, b ≠ 10 ∧ b ≠ 32 ∧ b ≠ 45 ∧ b ≠ 62) (hbad : badField t) :
    ∃ e, parseBuffer (renderCues cs ++ (idx ++ 10 :: (t ++ 32 :: rest))) =
      .ret (cs.map Cue.entry, some e) := by
  obtain ⟨h10, hid⟩ := indexToken_parse hidx
  have hfilter : t.filter (fun b => !arrowByte b) = t := by
    apply filter_eq_self_of
    intro x hx
    have := hbytes x hx
    simp [arrowByte, this.2.2.1, this.2.2.2]
  have herr : ∃ ts e, timeToTimestamp (TrimSpace (t.filter (fun b => !arrowByte b))) =
      .ret (ts, some e) := by
    rw [hfilter]
    by_cases hl : (TrimSpace t).length = 12
    · rw [TrimSpace_eq_of_length t (by rw [hl, hlen])]
      exact timeToTimestamp_bad t hlen (fun b hb => (hbytes b hb).2.2.1) hbad
    · exact ⟨Timestamp.zero,
        error.New "time must have the following format: byte(hh:mm:ss,mss)",
        by simp [timeToTimestamp, hl]⟩
  obtain ⟨ts, e, he⟩ := herr
  refine ⟨e, ?_⟩
  have hone : parseBuffer (idx ++ 10 :: (t ++ 32 :: rest)) = .ret ([], some e) := by
    have e1 : (idx ++ 10 :: (t ++ 32 :: rest)).drop 0 = idx ++ 10 :: (t ++ 32 :: rest) := rfl
    have e2 : (idx ++ 10 :: (t ++ 32 :: rest)).drop (0 + idx.length + 1) = t ++ 32 :: rest := by
      simp
    have step1 := ParseLoop_id 1 [] Subtitle.zero e1 h10 hid
    have step2 := ParseLoop_start_error 0 []
      { Subtitle.zero with Id := (decimalValue idx : Int) } e2
      (fun b hb => ⟨(hbytes b hb).1, (hbytes b hb).2.1⟩) he
    exact parseBuffer_of_loop (step1.trans step2)
  rw [parseBuffer_cues cs hwf, hone]
  simp [withEntries]

/-- The amended C7 at the start token `00:0x:01,000` of a second block. -/
theorem C7_bad_digit_in_start_token_witness :
    ∃ e, parseBuffer (renderCues [cueOne] ++
        (bytes "2" ++ 10 :: (bytes "00:0x:01,000" ++ 32 :: bytes "--> 00:00:02,000\nhi\n\n"))) =
      .ret ([cueOne].map Cue.entry, some e) :=
  C7_bad_digit_in_start_token [cueOne] (by decide) (bytes "2") (bytes "00:0x:01,000")
    (bytes "--> 00:00:02,000\nhi\n\n") (by decide) (by decide) (by decide) (by decide)

/-- Claim C8 fails on the buffer made of the index line `1`: the error is the
one of `timeToTimestamp` on the empty token, not `unexpected EOF`. -/
theorem C8_counterexample_index_line_only :
    parseBuffer (bytes "1\n") =
        .ret ([], some (error.New "time must have the following format: byte(hh:mm:ss,mss)")) ∧
      parseBuffer (bytes "1\n") ≠ .ret ([], some eralyEOFErr) := by
  decide

/-- Claim C8, amended. A buffer that ends right after an index line, with or
without well-formed cue blocks before it, makes `Parse` return an error and
not a success: the format error of `timeToTimestamp` on the empty token, which
is tested before the EOF flag. -/
theorem C8_truncated_after_index_line (cs : List Cue) (hwf : ∀ c ∈ cs, c.wellFormed = true)
    (idx : List Nat) (hidx : indexToken idx = true) :
    parseBuffer (renderCues cs ++ (idx ++ [10])) =
      .ret (cs.map Cue.entry,
        some (error.New "time must have the following format: byte(hh:mm:ss,mss)")) := by
  obtain ⟨h10, hid⟩ := indexToken_parse hidx
  have hone : parseBuffer (idx ++ [10]) =
      .ret ([], some (error.New "time must have the following format: byte(hh:mm:ss,mss)")) := by
    have e1 : (idx ++ [10]).drop 0 = idx ++ 10 :: [] := rfl
    have e2 : (idx ++ [10]).drop (0 + idx.length + 1) = [] := by simp
    have step1 := ParseLoop_id 1 [] Subtitle.zero e1 h10 hid
    have step2 := ParseLoop_start_eof 0 []
      { Subtitle.zero with Id := (decimalValue idx : Int) } e2
    exact parseBuffer_of_loop (step1.trans step2)
  rw [parseBuffer_cues cs hwf, hone]
  simp [withEntries]

/-- The amended C8 at one good cue followed by the index line `12`. -/
theorem C8_truncated_after_index_line_witness :
    parseBuffer (renderCues [cueOne] ++ (bytes "12" ++ [10])) =
      .ret ([cueOne].map Cue.entry,
        some (error.New "time must have the following format: byte(hh:mm:ss,mss)")) :=
  C8_truncated_after_index_line [cueOne] (by decide) (bytes "12") (by decide)

/-- Claim C9, at a buffer of two well-formed cue blocks with CRLF line ends:
`Parse` returns one entry, whose text runs from the first text line to the end
of the buffer, the second block included. -/
theorem C9_crlf_two_blocks_one_entry :
    parseBuffer (bytes "1\r\n00:00:01,000 --> 00:00:02,000\r\na\r\n\r\n2\r\n00:00:03,000 --> 00:00:04,000\r\nb\r\n\r\n") =
      .ret ([⟨1, ⟨0, 0, 1, 0⟩, ⟨0, 0, 2, 0⟩,
        bytes "a\r\n\r\n2\r\n00:00:03,000 --> 00:00:04,000\r\nb\r\n\r\n"⟩], none) := by
  decide

/-- Claim C10 fails on a timing line whose tokens are separated by one space:
the block is accepted and the error is nil. -/
theorem C10_counterexample_single_space :
    parseBuffer (bytes "1\n00:00:01,000 00:00:02,000\nhi") =
      .ret ([⟨1, ⟨0, 0, 1, 0⟩, ⟨0, 0, 2, 0⟩, bytes "hi"⟩], none) := by
  decide

/-- Claim C10, amended. What `Parse` needs between the two tokens is a space,
not the arrow. With nothing but `-` and `>` bytes between two well-formed
tokens it returns the format error of `timeToTimestamp`; with a single space
and no arrow it returns no error and the entry takes its start and end from the
two tokens. -/
theorem C10_space_not_arrow_separates (idx t1 t2 junk text : List Nat)
    (hidx : indexToken idx = true) (h1 : timeToken t1 = true) (h2 : timeToken t2 = true)
    (hjunk : ∀ b ∈ junk, arrowByte b = true) (htext : hasBlank text = false) :
    parseBuffer (idx ++ 10 :: (t1 ++ junk ++ t2 ++ 10 :: text)) =
        .ret ([], some (error.New "time must have the following format: byte(hh:mm:ss,mss)")) ∧
      parseBuffer (idx ++ 10 :: (t1 ++ 32 :: (t2 ++ 10 :: text))) =
        .ret ([⟨(decimalValue idx : Int), stampOf t1, stampOf t2, text⟩], none) := by
  obtain ⟨h10, hid⟩ := indexToken_parse hidx
  have hb1 := timeToken_bytes h1
  have hb2 := timeToken_bytes h2
  constructor
  · have hw : ∀ b ∈ t1 ++ junk ++ t2, b ≠ 10 ∧ b ≠ 32 := by
      intro b hb
      simp only [List.mem_append] at hb
      rcases hb with (hb | hb) | hb
      · exact ⟨(token_byte_facts (hb1 b hb)).1, (token_byte_facts (hb1 b hb)).2.1⟩
      · have := hjunk b hb
        simp only [arrowByte, Bool.or_eq_true, decide_eq_true_eq] at this
        omega
      · exact ⟨(token_byte_facts (hb2 b hb)).1, (token_byte_facts (hb2 b hb)).2.1⟩
    have hfilter : (t1 ++ junk ++ t2).filter (fun b => !arrowByte b) = t1 ++ t2 := by
      rw [List.filter_append, List.filter_append,
        filter_eq_self_of (t := t1) (fun x hx => by simp [(token_byte_facts (hb1 x hx)).2.2.1]),
        filter_eq_self_of (t := t2) (fun x hx => by simp [(token_byte_facts (hb2 x hx)).2.2.1]),
        List.filter_eq_nil_iff.mpr (fun x hx => by simp [hjunk x hx])]
      simp
    have hplain : ∀ b ∈ t1 ++ t2, plainByte b = true := by
      intro b hb
      rcases List.mem_append.mp hb with hb | hb
      · exact (token_byte_facts (hb1 b hb)).2.2.2.2
      · exact (token_byte_facts (hb2 b hb)).2.2.2.2
    have hl1 : t1.length = 12 := by
      obtain ⟨a, b, c, d, e, f, g, h, k, rfl, -⟩ := timeToken_shape h1
      rfl
    have hl2 : t2.length = 12 := by
      obtain ⟨a, b, c, d, e, f, g, h, k, rfl, -⟩ := timeToken_shape h2
      rfl
    have herr : timeToTimestamp (TrimSpace ((t1 ++ junk ++ t2).filter (fun b => !arrowByte b))) =
        .ret (Timestamp.zero,
          some (error.New "time must have the following format: byte(hh:mm:ss,mss)")) := by
      rw [hfilter, TrimSpace_plain _ hplain]
      simp [timeToTimestamp, hl1, hl2]
    have e1 : (idx ++ 10 :: (t1 ++ junk ++ t2 ++ 10 :: text)).drop 0 =
        idx ++ 10 :: (t1 ++ junk ++ t2 ++ 10 :: text) := rfl
    have e2 : (idx ++ 10 :: (t1 ++ junk ++ t2 ++ 10 :: text)).drop (0 + idx.length + 1) =
        (t1 ++ junk ++ t2) ++ 10 :: text := by
      simp
    have step1 := ParseLoop_id 1 [] Subtitle.zero e1 h10 hid
    have step2 := ParseLoop_start_line_error 0 []
      { Subtitle.zero with Id := (decimalValue idx : Int) } e2 hw herr
    exact parseBuffer_of_loop (step1.trans step2)
  · have hst : timeToTimestamp (TrimSpace (t1.filter (fun b => !arrowByte b))) =
        .ret (stampOf t1, none) := by
      rw [filter_eq_self_of (fun x hx => by simp [(token_byte_facts (hb1 x hx)).2.2.1])]
      exact timeToken_parse h1
    have hen : timeToTimestamp (TrimSpace (t2.filter (fun b => !arrowOrSpace b))) =
        .ret (stampOf t2, none) := by
      rw [filter_eq_self_of (fun x hx => by simp [(token_byte_facts (hb2 x hx)).2.2.2.1])]
      exact timeToken_parse h2
    have e1 : (idx ++ 10 :: (t1 ++ 32 :: (t2 ++ 10 :: text))).drop 0 =
        idx ++ 10 :: (t1 ++ 32 :: (t2 ++ 10 :: text)) := rfl
    have e2 : (idx ++ 10 :: (t1 ++ 32 :: (t2 ++ 10 :: text))).drop (0 + idx.length + 1) =
        t1 ++ 32 :: (t2 ++ 10 :: text) := by
      simp
    have e3 : (idx ++ 10 :: (t1 ++ 32 :: (t2 ++ 10 :: text))).drop
        (0 + idx.length + 1 + t1.length + 1) = t2 ++ 10 :: text := by
      have := drop_add_append (s := idx ++ 10 :: (t1 ++ 32 :: (t2 ++ 10 :: text)))
        (i := 0 + idx.length + 1) (w := t1 ++ [32]) (r := t2 ++ 10 :: text)
        (by rw [e2]; simp)
      simpa [Nat.add_assoc] using this
    have e4 : (idx ++ 10 :: (t1 ++ 32 :: (t2 ++ 10 :: text))).drop
        (0 + idx.length + 1 + t1.length + 1 + t2.length + 1) = text := by
      have := drop_add_append (s := idx ++ 10 :: (t1 ++ 32 :: (t2 ++ 10 :: text)))
        (i := 0 + idx.length + 1 + t1.length + 1) (w := t2 ++ [10]) (r := text)
        (by rw [e3]; simp)
      simpa [Nat.add_assoc] using this
    have step1 := ParseLoop_id 4 [] Subtitle.zero e1 h10 hid
    have step2 := ParseLoop_start 3 [] { Subtitle.zero with Id := (decimalValue idx : Int) } e2
      (fun b hb => ⟨(token_byte_facts (hb1 b hb)).1, (token_byte_facts (hb1 b hb)).2.1⟩) hst
    have step3 := ParseLoop_end 2 []
      { ({ Subtitle.zero with Id := (decimalValue idx : Int) } : Subtitle) with
        Start := stampOf t1 } e3
      (fun b hb => (token_byte_facts (hb2 b hb)).1) hen
    have step4 := ParseLoop_subs_eof 0 []
      { ({ ({ Subtitle.zero with Id := (decimalValue idx : Int) } : Subtitle) with
        Start := stampOf t1 } : Subtitle) with End := stampOf t2 } e4 htext
    exact parseBuffer_of_loop (((step1.trans step2).trans step3).trans step4)

/-- The amended C10 at index `7`, with `-->` alone and with one space alone. -/
theorem C10_space_not_arrow_separates_witness :
    parseBuffer (bytes "7" ++ 10 :: (bytes "00:00:01,000" ++ bytes "-->" ++ bytes "00:00:02,000" ++
        10 :: bytes "hi")) =
        .ret ([], some (error.New "time must have the following format: byte(hh:mm:ss,mss)")) ∧
      parseBuffer (bytes "7" ++ 10 :: (bytes "00:00:01,000" ++ 32 :: (bytes "00:00:02,000" ++
        10 :: bytes "hi"))) =
        .ret ([⟨(decimalValue (bytes "7") : Int), stampOf (bytes "00:00:01,000"),
          stampOf (bytes "00:00:02,000"), bytes "hi"⟩], none) :=
  C10_space_not_arrow_separates (bytes "7") (bytes "00:00:01,000") (bytes "00:00:02,000")
    (bytes "-->") (bytes "hi") (by decide) (by decide) (by decide) (by decide) (by decide)

theorem stripLeading_blanks (sp : List Nat) (d : Nat) (rest : List Nat)
    (hd : plainByte d = true) :
    ∀ fuel, (∀ b ∈ sp, blankByte b = true) → sp.length ≤ fuel →
      stripLeading whiteSpace fuel (sp ++ d :: rest) = d :: rest := by
  induction sp with
  | nil =>
    intro fuel _ _
    exact stripLeading_of_none _ _ _ (whiteSpace_not_plain d rest hd)
  | cons b sp ih =>
    intro fuel hsp hfuel
    obtain ⟨n, rfl⟩ : ∃ n, fuel = n + 1 := ⟨fuel - 1, by simp at hfuel; omega⟩
    have hb := hsp b (by simp)
    have hrec := ih n (fun x hx => hsp x (by simp [hx])) (by simp at hfuel; omega)
    simp only [blankByte, Bool.or_eq_true, decide_eq_true_eq] at hb
    rcases hb with rfl | rfl
    · simpa [stripLeading, whiteSpace, List.find?, startsWith] using hrec
    · simpa [stripLeading, whiteSpace, List.find?, startsWith] using hrec

theorem stripLeading_reverse_blanks (sp : List Nat) (d : Nat) (rest : List Nat)
    (hd : plainByte d = true) :
    ∀ fuel, (∀ b ∈ sp, blankByte b = true) → sp.length ≤ fuel →
      stripLeading (whiteSpace.map List.reverse) fuel (sp ++ d :: rest) = d :: rest := by
  induction sp with
  | nil =>
    intro fuel _ _
    exact stripLeading_of_none _ _ _ (whiteSpace_reverse_not_plain d rest hd)
  | cons b sp ih =>
    intro fuel hsp hfuel
    obtain ⟨n, rfl⟩ : ∃ n, fuel = n + 1 := ⟨fuel - 1, by simp at hfuel; omega⟩
    have hb := hsp b (by simp)
    have hrec := ih n (fun x hx => hsp x (by simp [hx])) (by simp at hfuel; omega)
    simp only [blankByte, Bool.or_eq_true, decide_eq_true_eq] at hb
    rcases hb with rfl | rfl
    · simpa [stripLeading, whiteSpace, List.find?, startsWith] using hrec
    · simpa [stripLeading, whiteSpace, List.find?, startsWith] using hrec

/-- `TrimSpace` removes the spaces and tabs around a printable token. -/
theorem TrimSpace_blanks (sp1 ds sp2 : List Nat) (hne : ds ≠ [])
    (hds : ∀ b ∈ ds, plainByte b = true) (h1 : ∀ b ∈ sp1, blankByte b = true)
    (h2 : ∀ b ∈ sp2, blankByte b = true) : TrimSpace (sp1 ++ ds ++ sp2) = ds := by
  obtain ⟨d, ds1, rfl⟩ := List.exists_cons_of_ne_nil hne
  have hrne : (d :: ds1).reverse ≠ [] := by simp
  obtain ⟨z, init, hz⟩ := List.exists_cons_of_ne_nil hrne
  have hzmem : z ∈ d :: ds1 := by
    have : z ∈ (d :: ds1).reverse := by rw [hz]; simp
    exact List.mem_reverse.mp this
  have e1 : sp1 ++ (d :: ds1) ++ sp2 = sp1 ++ d :: (ds1 ++ sp2) := by simp
  have hl : stripLeading whiteSpace (sp1 ++ (d :: ds1) ++ sp2).length
      (sp1 ++ (d :: ds1) ++ sp2) = d :: (ds1 ++ sp2) := by
    rw [e1]
    exact stripLeading_blanks sp1 d _ (hds d (by simp)) _ h1 (by simp)
  have e2 : (d :: (ds1 ++ sp2)).reverse = sp2.reverse ++ z :: init := by
    have : d :: (ds1 ++ sp2) = (d :: ds1) ++ sp2 := by simp
    rw [this, List.reverse_append, hz]
  simp only [TrimSpace, hl]
  rw [e2, stripLeading_reverse_blanks sp2.reverse z init (hds z hzmem) _
    (fun b hb => h2 b (List.mem_reverse.mp hb)) (by simp; omega), ← hz]
  simp

theorem hasBlank_append_single (t : List Nat) (b : Nat) :
    hasBlank (t ++ [b]) = (hasBlank t || (decide (t.getLast? = some 10) && decide (b = 10))) := by
  induction t with
  | nil => simp [hasBlank]
  | cons a t ih =>
    cases t with
    | nil => simp [hasBlank]
    | cons c t =>
      simp only [List.cons_append, hasBlank, List.head?_cons] at ih ⊢
      rw [ih]
      simp [List.getLast?_cons_cons, Bool.or_assoc]

/-- Claim C12. On a stream whose unread bytes are spaces or tabs, a decimal
numeral that fits in an `int`, spaces or tabs, and a line feed, `parseId`
returns the value of the numeral and a nil error, leaves the cursor just past
the line feed and does not touch the flag. -/
theorem C12_parseId_trims_blanks (i : Nat) (s : List Nat) (f : flag)
    (sp1 ds sp2 rest : List Nat) (hf : f ≠ flag.EOF) (h1 : ∀ b ∈ sp1, blankByte b = true)
    (h2 : ∀ b ∈ sp2, blankByte b = true) (hds : indexToken ds = true)
    (h : s.drop i = sp1 ++ ds ++ sp2 ++ 10 :: rest) :
    parseId ⟨i, s, f⟩ =
      .ret (((decimalValue ds : Int), none), ⟨i + (sp1 ++ ds ++ sp2).length + 1, s, f⟩) := by
  have hds' := hds
  simp only [indexToken, Bool.and_eq_true, decide_eq_true_eq] at hds'
  obtain ⟨⟨hne, hdig⟩, hval⟩ := hds'
  have hplain : ∀ b ∈ ds, plainByte b = true :=
    fun b hb => plainByte_of_isDigit (List.all_eq_true.mp hdig b hb)
  have h10 : ∀ b ∈ sp1 ++ ds ++ sp2, b ≠ 10 := by
    intro b hb
    simp only [List.mem_append] at hb
    rcases hb with (hb | hb) | hb
    · have := h1 b hb
      simp only [blankByte, Bool.or_eq_true, decide_eq_true_eq] at this
      omega
    · exact (indexToken_parse hds).1 b hb
    · have := h2 b hb
      simp only [blankByte, Bool.or_eq_true, decide_eq_true_eq] at this
      omega
  have hlen := drop_length_eq h
  have hloop := parseIdLoop_line (sp1 ++ ds ++ sp2) (s.length - i + 1) i s f [] rest h10 hf h
    (by rw [hlen]; simp; omega)
  have htrim : bytesToInt (TrimSpace (sp1 ++ ds ++ sp2)) = ((decimalValue ds : Int), none) := by
    rw [TrimSpace_blanks sp1 ds sp2 hne hplain h1 h2]
    exact bytesToInt_digits _ hne hdig hval
  simp only [parseId, hloop, List.nil_append, htrim]

/-- The index line ` 12 ` of the specification, at the head of a buffer. -/
theorem C12_parseId_trims_blanks_witness :
    parseId ⟨0, bytes " 12 \n00:00:01,000", flag.ID⟩ =
      .ret (((decimalValue (bytes "12") : Int), none),
        ⟨0 + (bytes " " ++ bytes "12" ++ bytes " ").length + 1, bytes " 12 \n00:00:01,000",
          flag.ID⟩) :=
  C12_parseId_trims_blanks 0 (bytes " 12 \n00:00:01,000") flag.ID (bytes " ") (bytes "12")
    (bytes " ") (bytes "00:00:01,000") (by decide) (by decide) (by decide) (by decide)
    (by decide)

/-- Claim C13. With the cursor at the start of `t`, two line feeds and any
bytes, where `t` has no two consecutive line feeds and does not end with one,
`parseSubs` returns `t`, moves the cursor by the length of `t` plus 2 and does
not touch the flag. -/
theorem C13_parseSubs_returns_text (i : Nat) (s : List Nat) (f : flag) (t rest : List Nat)
    (hf : f ≠ flag.EOF) (h1 : hasBlank t = false) (h2 : t.getLast? ≠ some 10)
    (h : s.drop i = t ++ 10 :: 10 :: rest) :
    parseSubs ⟨i, s, f⟩ = .ret (t, ⟨i + t.length + 2, s, f⟩) := by
  have hb : hasBlank (t ++ [10]) = false := by
    rw [hasBlank_append_single, h1]
    simp [h2]
  have hlen := drop_length_eq h
  have hloop := parseSubsLoop_blank t (s.length - i + 1) i s f [] rest hb hf h
    (by rw [hlen]; simp; omega)
  simpa [parseSubs] using hloop

/-- Two text lines, kept with the line feed between them. -/
theorem C13_parseSubs_returns_text_witness :
    parseSubs ⟨2, bytes "1\nab\ncd\n\n2\n", flag.SUBS⟩ =
      .ret (bytes "ab\ncd", ⟨2 + (bytes "ab\ncd").length + 2, bytes "1\nab\ncd\n\n2\n",
        flag.SUBS⟩) :=
  C13_parseSubs_returns_text 2 (bytes "1\nab\ncd\n\n2\n") flag.SUBS (bytes "ab\ncd")
    (bytes "2\n") (by decide) (by decide) (by decide) (by decide)

/-- The four phases of `Parse` over a last block whose text runs to the end of
the buffer. -/
theorem parseBuffer_last_block (idx t1 t2 text : List Nat) (hidx : indexToken idx = true)
    (h1 : timeToken t1 = true) (h2 : timeToken t2 = true) (htext : hasBlank text = false) :
    parseBuffer (idx ++ 10 :: (t1 ++ arrow ++ t2 ++ 10 :: text)) =
      .ret ([⟨(decimalValue idx : Int), stampOf t1, stampOf t2, text⟩], none) := by
  obtain ⟨h10, hid⟩ := indexToken_parse hidx
  have hb1 := timeToken_bytes h1
  have hb2 := timeToken_bytes h2
  have hst : timeToTimestamp (TrimSpace (t1.filter (fun b => !arrowByte b))) =
      .ret (stampOf t1, none) := by
    rw [filter_eq_self_of (fun x hx => by simp [(token_byte_facts (hb1 x hx)).2.2.1])]
    exact timeToken_parse h1
  have hen : timeToTimestamp (TrimSpace
      (([45, 45, 62, 32] ++ t2).filter (fun b => !arrowOrSpace b))) = .ret (stampOf t2, none) := by
    have : ([45, 45, 62, 32] ++ t2).filter (fun b => !arrowOrSpace b) = t2 := by
      rw [List.filter_append, filter_eq_self_of (t := t2)
        (fun x hx => by simp [(token_byte_facts (hb2 x hx)).2.2.2.1])]
      rfl
    rw [this]
    exact timeToken_parse h2
  have e1 : (idx ++ 10 :: (t1 ++ arrow ++ t2 ++ 10 :: text)).drop 0 =
      idx ++ 10 :: (t1 ++ 32 :: (([45, 45, 62, 32] ++ t2) ++ 10 :: text)) := by
    simp [arrow]
  have e2 : (idx ++ 10 :: (t1 ++ arrow ++ t2 ++ 10 :: text)).drop (0 + idx.length + 1) =
      t1 ++ 32 :: (([45, 45, 62, 32] ++ t2) ++ 10 :: text) := by
    simp [arrow]
  have e3 : (idx ++ 10 :: (t1 ++ arrow ++ t2 ++ 10 :: text)).drop
      (0 + idx.length + 1 + t1.length + 1) = ([45, 45, 62, 32] ++ t2) ++ 10 :: text := by
    have := drop_add_append (s := idx ++ 10 :: (t1 ++ arrow ++ t2 ++ 10 :: text))
      (i := 0 + idx.length + 1) (w := t1 ++ [32]) (r := ([45, 45, 62, 32] ++ t2) ++ 10 :: text)
      (by rw [e2]; simp)
    simpa [Nat.add_assoc] using this
  have e4 : (idx ++ 10 :: (t1 ++ arrow ++ t2 ++ 10 :: text)).drop
      (0 + idx.length + 1 + t1.length + 1 + ([45, 45, 62, 32] ++ t2).length + 1) = text := by
    have := drop_add_append (s := idx ++ 10 :: (t1 ++ arrow ++ t2 ++ 10 :: text))
      (i := 0 + idx.length + 1 + t1.length + 1) (w := ([45, 45, 62, 32] ++ t2) ++ [10])
      (r := text) (by rw [e3]; simp)
    simpa [Nat.add_assoc] using this
  have step1 := ParseLoop_id 4 [] Subtitle.zero e1 h10 hid
  have step2 := ParseLoop_start 3 [] { Subtitle.zero with Id := (decimalValue idx : Int) } e2
    (fun b hb => ⟨(token_byte_facts (hb1 b hb)).1, (token_byte_facts (hb1 b hb)).2.1⟩) hst
  have step3 := ParseLoop_end 2 []
    { ({ Subtitle.zero with Id := (decimalValue idx : Int) } : Subtitle) with
      Start := stampOf t1 } e3
    (by
      intro b hb
      rcases List.mem_append.mp hb with hb | hb
      · simp only [List.mem_cons, List.mem_singleton, List.not_mem_nil, or_false] at hb
        omega
      · exact (token_byte_facts (hb2 b hb)).1) hen
  have step4 := ParseLoop_subs_eof 0 []
    { ({ ({ Subtitle.zero with Id := (decimalValue idx : Int) } : Subtitle) with
      Start := stampOf t1 } : Subtitle) with End := stampOf t2 } e4 htext
  exact parseBuffer_of_loop (((step1.trans step2).trans step3).trans step4)

/-- Claim C14. After any well-formed cue blocks, a last block whose text runs to
the end of the buffer without a blank line still gives its entry, with the
remaining bytes as text, after the earlier entries, and the error is nil. -/
theorem C14_last_block_without_blank_line (cs : List Cue)
    (hwf : ∀ c ∈ cs, c.wellFormed = true) (idx t1 t2 text : List Nat)
    (hidx : indexToken idx = true) (h1 : timeToken t1 = true) (h2 : timeToken t2 = true)
    (htext : hasBlank text = false) :
    parseBuffer (renderCues cs ++ (idx ++ 10 :: (t1 ++ arrow ++ t2 ++ 10 :: text))) =
      .ret (cs.map Cue.entry ++ [⟨(decimalValue idx : Int), stampOf t1, stampOf t2, text⟩],
        none) := by
  rw [parseBuffer_cues cs hwf, parseBuffer_last_block idx t1 t2 text hidx h1 h2 htext]
  rfl

/-- Two cue blocks, then a third whose two text lines end the buffer. -/
theorem C14_last_block_without_blank_line_witness :
    parseBuffer (renderCues [cueOne, cueTwo] ++
        (bytes "3" ++ 10 :: (bytes "00:00:05,000" ++ arrow ++ bytes "00:00:06,000" ++
          10 :: bytes "x\ny"))) =
      .ret ([cueOne, cueTwo].map Cue.entry ++
        [⟨(decimalValue (bytes "3") : Int), stampOf (bytes "00:00:05,000"),
          stampOf (bytes "00:00:06,000"), bytes "x\ny"⟩], none) :=
  C14_last_block_without_blank_line [cueOne, cueTwo] (by decide) (bytes "3")
    (bytes "00:00:05,000") (bytes "00:00:06,000") (bytes "x\ny") (by decide) (by decide)
    (by decide) (by decide)

/-! ## Properties of every entry that `Parse` returns -/

/-- A property `Q` of the entries holds of every entry returned by the loop of
`Parse` as soon as it holds of the entries already collected and follows, when
`parseSubs` returns, from a property `K` that the entry under construction
keeps through the three earlier phases. -/
theorem ParseLoop_entries (K Q : Subtitle → Prop)
    (hId : ∀ (c : Subtitle) (id : Int), K c → K { c with Id := id })
    (hStart : ∀ (c : Subtitle) (p : Parser) (ts : Timestamp) (p1 : Parser), K c →
      parseTime p = .ret ((ts, none), p1) → K { c with Start := ts })
    (hEnd : ∀ (c : Subtitle) (p : Parser) (ts : Timestamp) (p1 : Parser), K c →
      parseTime p = .ret ((ts, none), p1) → K { c with End := ts })
    (hText : ∀ (c : Subtitle) (t : List Nat), K c → K { c with Subs := t })
    (hSubs : ∀ (c : Subtitle) (p : Parser) (t : List Nat) (p1 : Parser), K c →
      parseSubs p = .ret (t, p1) → Q { c with Subs := t })
    (hzero : K Subtitle.zero) :
    ∀ (n : Nat) (p : Parser) (subs : List Subtitle) (cur : Subtitle) (L : List Subtitle)
      (e : Option error) (q : Parser), K cur → (∀ x ∈ subs, Q x) →
      ParseLoop n p subs cur = .ret ((L, e), q) → ∀ x ∈ L, Q x := by
  intro n
  induction n with
  | zero => intro p subs cur L e q _ _ h; simp [ParseLoop] at h
  | succ n ih =>
    intro p subs cur L e q hK hQ h
    obtain ⟨i, s, f⟩ := p
    cases f with
    | EOF =>
      simp only [ParseLoop, Exec.ret.injEq, Prod.mk.injEq] at h
      obtain ⟨⟨rfl, -⟩, -⟩ := h
      exact hQ
    | ID =>
      simp only [ParseLoop] at h
      cases hid : parseId ⟨i, s, flag.ID⟩ with
      | ret x =>
        obtain ⟨⟨id, err⟩, p1⟩ := x
        simp only [hid] at h
        split_ifs at h with h1 h2
        · simp only [Exec.ret.injEq, Prod.mk.injEq] at h
          obtain ⟨⟨rfl, -⟩, -⟩ := h
          exact hQ
        · simp only [Exec.ret.injEq, Prod.mk.injEq] at h
          obtain ⟨⟨rfl, -⟩, -⟩ := h
          exact hQ
        · exact ih _ _ _ _ _ _ (hId cur id hK) hQ h
      | panic => simp [hid] at h
      | timeout => simp [hid] at h
    | START =>
      simp only [ParseLoop] at h
      cases hid : parseTime ⟨i, s, flag.START⟩ with
      | ret x =>
        obtain ⟨⟨ts, err⟩, p1⟩ := x
        simp only [hid] at h
        split_ifs at h with h1 h2
        · simp only [Exec.ret.injEq, Prod.mk.injEq] at h
          obtain ⟨⟨rfl, -⟩, -⟩ := h
          exact hQ
        · simp only [Exec.ret.injEq, Prod.mk.injEq] at h
          obtain ⟨⟨rfl, -⟩, -⟩ := h
          exact hQ
        · have herr : err = none := by simpa using h1
          subst herr
          exact ih _ _ _ _ _ _ (hStart cur _ ts p1 hK hid) hQ h
      | panic => simp [hid] at h
      | timeout => simp [hid] at h
    | END =>
      simp only [ParseLoop] at h
      cases hid : parseTime ⟨i, s, flag.END⟩ with
      | ret x =>
        obtain ⟨⟨ts, err⟩, p1⟩ := x
        simp only [hid] at h
        split_ifs at h with h1 h2
        · simp only [Exec.ret.injEq, Prod.mk.injEq] at h
          obtain ⟨⟨rfl, -⟩, -⟩ := h
          exact hQ
        · simp only [Exec.ret.injEq, Prod.mk.injEq] at h
          obtain ⟨⟨rfl, -⟩, -⟩ := h
          exact hQ
        · have herr : err = none := by simpa using h1
          subst herr
          exact ih _ _ _ _ _ _ (hEnd cur _ ts p1 hK hid) hQ h
      | panic => simp [hid] at h
      | timeout => simp [hid] at h
    | SUBS =>
      simp only [ParseLoop] at h
      cases hid : parseSubs ⟨i, s, flag.SUBS⟩ with
      | ret x =>
        obtain ⟨t, p1⟩ := x
        simp only [hid] at h
        have hQ' : ∀ x ∈ subs ++ [{ cur with Subs := t }], Q x := by
          intro x hx
          rcases List.mem_append.mp hx with hx | hx
          · exact hQ x hx
          · rw [List.mem_singleton] at hx
            subst hx
            exact hSubs cur _ t p1 hK hid
        split_ifs at h with h1
        · exact ih _ _ _ _ _ _ hzero hQ' h
        · exact ih _ _ _ _ _ _ (hText cur t hK) hQ' h
      | panic => simp [hid] at h
      | timeout => simp [hid] at h

/-! ### No blank line inside a text -/

theorem parseSubsLoop_no_blank :
    ∀ (fuel i : Nat) (s : List Nat) (f : flag) (acc out : List Nat) (q : Parser),
      hasBlank acc = false → (acc.getLast? = some 10 → (s.drop i).head? ≠ some 10) →
      parseSubsLoop fuel ⟨i, s, f⟩ acc = .ret (out, q) → hasBlank out = false := by
  intro fuel
  induction fuel with
  | zero => intro i s f acc out q _ _ h; simp [parseSubsLoop] at h
  | succ n ih =>
    intro i s f acc out q hacc hlast h
    rcases read_cases i s f with ⟨b, rest, hd, hr⟩ | ⟨hd, hr⟩
    · simp only [parseSubsLoop, hr] at h
      by_cases hf : f ≠ flag.EOF
      · rw [if_pos hf] at h
        by_cases hb : b = 10
        · subst hb
          rw [if_pos rfl] at h
          have hnl : acc.getLast? ≠ some 10 := by
            intro hl
            exact hlast hl (by rw [hd]; rfl)
          have hacc' : hasBlank (acc ++ [10]) = false := by
            rw [hasBlank_append_single, hacc]
            simp [hnl]
          rcases peek_cases (i + 1) s f with ⟨c, rest2, hd2, hp2⟩ | ⟨hd2, hp2⟩
          · simp only [hp2] at h
            by_cases hc : c = 10
            · rw [if_pos hc, read_cons hd2] at h
              simp only [Exec.ret.injEq, Prod.mk.injEq] at h
              rw [← h.1]
              exact hacc
            · rw [if_neg hc] at h
              refine ih (i + 1) s f _ out q hacc' ?_ h
              intro _
              rw [hd2]
              simpa using hc
          · simp only [hp2] at h
            rw [if_neg (by decide)] at h
            refine ih (i + 1) s flag.EOF _ out q hacc' ?_ h
            intro _
            rw [hd2]
            simp
        · rw [if_neg hb] at h
          have hacc' : hasBlank (acc ++ [b]) = false := by
            rw [hasBlank_append_single, hacc]
            simp [hb]
          refine ih (i + 1) s f _ out q hacc' ?_ h
          intro hl
          simp at hl
          exact absurd hl hb
      · rw [if_neg hf] at h
        simp only [Exec.ret.injEq, Prod.mk.injEq] at h
        rw [← h.1]
        exact hacc
    · simp only [parseSubsLoop, hr] at h
      rw [if_neg (by simp)] at h
      simp only [Exec.ret.injEq, Prod.mk.injEq] at h
      rw [← h.1]
      exact hacc

theorem parseSubs_no_blank (p : Parser) (t : List Nat) (q : Parser)
    (h : parseSubs p = .ret (t, q)) : hasBlank t = false := by
  obtain ⟨i, s, f⟩ := p
  exact parseSubsLoop_no_blank _ i s f [] t q rfl (by simp) h

/-! ### No negative field in a timestamp -/

theorem parseTimeLoop_no_minus :
    ∀ (fuel i : Nat) (s : List Nat) (f : flag) (acc out : List Nat) (q : Parser),
      (∀ b ∈ acc, b ≠ 45) → parseTimeLoop fuel ⟨i, s, f⟩ acc = .ret (out, q) →
      ∀ b ∈ out, b ≠ 45 := by
  intro fuel
  induction fuel with
  | zero => intro i s f acc out q _ h; simp [parseTimeLoop] at h
  | succ n ih =>
    intro i s f acc out q hacc h
    have hstop : ∀ q1 : Parser, (Exec.ret (acc, q1) : Exec (List Nat × Parser)) = .ret (out, q) →
        ∀ b ∈ out, b ≠ 45 := by
      intro q1 h1
      simp only [Exec.ret.injEq, Prod.mk.injEq] at h1
      rw [← h1.1]
      exact hacc
    rcases read_cases i s f with ⟨b, rest, hd, hr⟩ | ⟨hd, hr⟩
    · simp only [parseTimeLoop, hr] at h
      split_ifs at h with h1 h2 h3 h4
      · exact ih _ _ _ _ _ _ hacc h
      · exact hstop _ h
      · exact ih _ _ _ _ _ _ hacc h
      · refine ih _ _ _ _ _ _ ?_ h
        intro x hx
        rcases List.mem_append.mp hx with hx | hx
        · exact hacc x hx
        · rw [List.mem_singleton] at hx
          subst hx
          exact fun hx45 => h2 (Or.inl hx45)
      · exact hstop _ h
    · simp only [parseTimeLoop, hr] at h
      rw [if_neg (by simp)] at h
      exact hstop _ h

theorem TrimSpace_subset (s : List Nat) : ∀ b ∈ TrimSpace s, b ∈ s := by
  obtain ⟨k1, h1⟩ := stripLeading_drop whiteSpace s.length s
  obtain ⟨k2, h2⟩ := stripLeading_drop (whiteSpace.map List.reverse)
    (stripLeading whiteSpace s.length s).length (stripLeading whiteSpace s.length s).reverse
  intro b hb
  simp only [TrimSpace] at hb
  rw [h2, h1] at hb
  have hb1 := List.mem_of_mem_drop (List.mem_reverse.mp hb)
  exact List.mem_of_mem_drop (List.mem_reverse.mp hb1)

theorem bytesToInt_nonneg (s : List Nat) (h : ∀ b ∈ s, b ≠ 45) : 0 ≤ (bytesToInt s).1 := by
  cases s with
  | nil => simp [bytesToInt, Atoi]
  | cons c rest =>
    have hc : c ≠ 45 := h c (by simp)
    simp only [bytesToInt, Atoi, hc, false_or, if_false]
    split_ifs <;> simp

theorem timeToTimestamp_nonneg (time : List Nat) (h : ∀ b ∈ time, b ≠ 45) (ts : Timestamp)
    (e : Option error) (hr : timeToTimestamp time = .ret (ts, e)) : ts.NonNeg := by
  by_cases hl : time.length = 12
  · rcases time with _ | ⟨a, _ | ⟨b, _ | ⟨c1, _ | ⟨c, _ | ⟨d, _ | ⟨c2, _ | ⟨e1, _ | ⟨f, _ | ⟨c3,
      _ | ⟨g, _ | ⟨h1, _ | ⟨k, _ | ⟨x, t⟩⟩⟩⟩⟩⟩⟩⟩⟩⟩⟩⟩⟩ <;> simp at hl
    have n1 := bytesToInt_nonneg [a, b] (fun x hx => h x (by simp at hx; rcases hx with rfl | rfl <;> simp))
    have n2 := bytesToInt_nonneg [c, d] (fun x hx => h x (by simp at hx; rcases hx with rfl | rfl <;> simp))
    have n3 := bytesToInt_nonneg [e1, f] (fun x hx => h x (by simp at hx; rcases hx with rfl | rfl <;> simp))
    have n4 := bytesToInt_nonneg [h1, k] (fun x hx => h x (by simp at hx; rcases hx with rfl | rfl <;> simp))
    simp [timeToTimestamp, slice, Timestamp.zero] at hr
    rcases r1 : bytesToInt [a, b] with ⟨v1, _ | e1⟩ <;> rw [r1] at hr n1 <;> simp only at hr n1
    · rcases r2 : bytesToInt [c, d] with ⟨v2, _ | e2⟩ <;> rw [r2] at hr n2 <;> simp only at hr n2
      · rcases r3 : bytesToInt [e1, f] with ⟨v3, _ | e3⟩ <;> rw [r3] at hr n3 <;>
          simp only at hr n3
        · rcases r4 : bytesToInt [h1, k] with ⟨v4, _ | e4⟩ <;> rw [r4] at hr n4 <;>
            simp only at hr n4
          · simp only [Exec.ret.injEq, Prod.mk.injEq] at hr
            rw [← hr.1]
            exact ⟨n1, n2, n3, n4⟩
          · simp only [Exec.ret.injEq, Prod.mk.injEq] at hr
            rw [← hr.1]
            exact ⟨n1, n2, n3, n4⟩
        · simp only [Exec.ret.injEq, Prod.mk.injEq] at hr
          rw [← hr.1]
          exact ⟨n1, n2, n3, le_refl 0⟩
      · simp only [Exec.ret.injEq, Prod.mk.injEq] at hr
        rw [← hr.1]
        exact ⟨n1, n2, le_refl 0, le_refl 0⟩
    · simp only [Exec.ret.injEq, Prod.mk.injEq] at hr
      rw [← hr.1]
      exact ⟨n1, le_refl 0, le_refl 0, le_refl 0⟩
  · simp [timeToTimestamp, hl, Timestamp.zero] at hr
    rw [← hr.1]
    exact ⟨le_refl 0, le_refl 0, le_refl 0, le_refl 0⟩

theorem parseTime_nonneg (p : Parser) (ts : Timestamp) (e : Option error) (q : Parser)
    (h : parseTime p = .ret ((ts, e), q)) : ts.NonNeg := by
  obtain ⟨i, s, f⟩ := p
  simp only [parseTime] at h
  cases hl : parseTimeLoop (s.length - i + 1) ⟨i, s, f⟩ [] with
  | ret x =>
    obtain ⟨time, p1⟩ := x
    have hm := parseTimeLoop_no_minus _ i s f [] time p1 (by simp) hl
    simp only [hl] at h
    cases ht : timeToTimestamp (TrimSpace time) with
    | ret r =>
      obtain ⟨ts1, e1⟩ := r
      simp only [ht, Exec.ret.injEq, Prod.mk.injEq] at h
      obtain ⟨⟨rfl, rfl⟩, -⟩ := h
      exact timeToTimestamp_nonneg _ (fun b hb => hm b (TrimSpace_subset time b hb)) _ _ ht
    | panic => simp [ht] at h
    | timeout => simp [ht] at h
  | panic => simp [hl] at h
  | timeout => simp [hl] at h

/-! ### The cursor -/

theorem parseIdLoop_bounded :
    ∀ (fuel i : Nat) (s : List Nat) (f : flag) (acc out : List Nat) (q : Parser),
      i ≤ s.length → parseIdLoop fuel ⟨i, s, f⟩ acc = .ret (out, q) →
      q.NextIndex ≤ s.length + 1 := by
  intro fuel
  induction fuel with
  | zero => intro i s f acc out q _ h; simp [parseIdLoop] at h
  | succ n ih =>
    intro i s f acc out q hi h
    rcases read_cases i s f with ⟨b, rest, hd, hr⟩ | ⟨hd, hr⟩
    · have hlt : i < s.length := by
        by_contra hc
        rw [List.drop_eq_nil_of_le (by omega)] at hd; cases hd
      simp only [parseIdLoop, hr] at h
      split_ifs at h
      · exact ih _ _ _ _ _ _ (by omega) h
      · simp only [Exec.ret.injEq, Prod.mk.injEq] at h
        rw [← h.2]
        show i + 1 ≤ s.length + 1
        omega
    · simp only [parseIdLoop, hr] at h
      rw [if_neg (by simp)] at h
      simp only [Exec.ret.injEq, Prod.mk.injEq] at h
      rw [← h.2]
      show i + 1 ≤ s.length + 1
      omega

theorem parseTimeLoop_bounded :
    ∀ (fuel i : Nat) (s : List Nat) (f : flag) (acc out : List Nat) (q : Parser),
      i ≤ s.length → parseTimeLoop fuel ⟨i, s, f⟩ acc = .ret (out, q) →
      q.NextIndex ≤ s.length + 1 := by
  intro fuel
  induction fuel with
  | zero => intro i s f acc out q _ h; simp [parseTimeLoop] at h
  | succ n ih =>
    intro i s f acc out q hi h
    have hstop : ∀ a : List Nat,
        (Exec.ret (a, (⟨i + 1, s, f⟩ : Parser)) : Exec (List Nat × Parser)) = .ret (out, q) →
        q.NextIndex ≤ s.length + 1 := by
      intro a h1
      simp only [Exec.ret.injEq, Prod.mk.injEq] at h1
      rw [← h1.2]
      show i + 1 ≤ s.length + 1
      omega
    rcases read_cases i s f with ⟨b, rest, hd, hr⟩ | ⟨hd, hr⟩
    · have hlt : i < s.length := by
        by_contra hc
        rw [List.drop_eq_nil_of_le (by omega)] at hd; cases hd
      simp only [parseTimeLoop, hr] at h
      split_ifs at h
      · exact ih _ _ _ _ _ _ (by omega) h
      · exact hstop _ h
      · exact ih _ _ _ _ _ _ (by omega) h
      · exact ih _ _ _ _ _ _ (by omega) h
      · exact hstop _ h
    · simp only [parseTimeLoop, hr] at h
      rw [if_neg (by simp)] at h
      simp only [Exec.ret.injEq, Prod.mk.injEq] at h
      rw [← h.2]
      show i + 1 ≤ s.length + 1
      omega

theorem parseSubsLoop_bounded :
    ∀ (fuel i : Nat) (s : List Nat) (f : flag) (acc out : List Nat) (q : Parser),
      i ≤ s.length → parseSubsLoop fuel ⟨i, s, f⟩ acc = .ret (out, q) →
      q.NextIndex ≤ s.length + 1 := by
  intro fuel
  induction fuel with
  | zero => intro i s f acc out q _ h; simp [parseSubsLoop] at h
  | succ n ih =>
    intro i s f acc out q hi h
    rcases read_cases i s f with ⟨b, rest, hd, hr⟩ | ⟨hd, hr⟩
    · have hlt : i < s.length := by
        by_contra hc
        rw [List.drop_eq_nil_of_le (by omega)] at hd; cases hd
      simp only [parseSubsLoop, hr] at h
      by_cases hf : f ≠ flag.EOF
      · rw [if_pos hf] at h
        by_cases hb : b = 10
        · rw [if_pos hb] at h
          rcases peek_cases (i + 1) s f with ⟨c, rest2, hd2, hp2⟩ | ⟨hd2, hp2⟩
          · have hlt2 : i + 1 < s.length := by
              by_contra hc
              rw [List.drop_eq_nil_of_le (by omega)] at hd2; cases hd2
            simp only [hp2] at h
            by_cases hc : c = 10
            · rw [if_pos hc, read_cons hd2] at h
              simp only [Exec.ret.injEq, Prod.mk.injEq] at h
              rw [← h.2]
              show i + 1 + 1 ≤ s.length + 1
              omega
            · rw [if_neg hc] at h
              exact ih _ _ _ _ _ _ (by omega) h
          · simp only [hp2] at h
            rw [if_neg (by decide)] at h
            exact ih _ _ _ _ _ _ (by omega) h
        · rw [if_neg hb] at h
          exact ih _ _ _ _ _ _ (by omega) h
      · rw [if_neg hf] at h
        simp only [Exec.ret.injEq, Prod.mk.injEq] at h
        rw [← h.2]
        show i + 1 ≤ s.length + 1
        omega
    · simp only [parseSubsLoop, hr] at h
      rw [if_neg (by simp)] at h
      simp only [Exec.ret.injEq, Prod.mk.injEq] at h
      rw [← h.2]
      show i + 1 ≤ s.length + 1
      omega

theorem parseId_bounded (i : Nat) (s : List Nat) (f : flag) (r : Int × Option error)
    (q : Parser) (hi : i ≤ s.length) (h : parseId ⟨i, s, f⟩ = .ret (r, q)) :
    q.NextIndex ≤ s.length + 1 := by
  simp only [parseId] at h
  cases hl : parseIdLoop (s.length - i + 1) ⟨i, s, f⟩ [] with
  | ret x =>
    obtain ⟨id, p1⟩ := x
    have hb := parseIdLoop_bounded _ i s f [] id p1 hi hl
    simp only [hl] at h
    rcases hbi : bytesToInt (TrimSpace id) with ⟨a, _ | e⟩ <;> rw [hbi] at h <;>
      simp only [Exec.ret.injEq, Prod.mk.injEq] at h <;> rw [← h.2] <;> exact hb
  | panic => simp [hl] at h
  | timeout => simp [hl] at h

theorem parseTime_bounded (i : Nat) (s : List Nat) (f : flag) (r : Timestamp × Option error)
    (q : Parser) (hi : i ≤ s.length) (h : parseTime ⟨i, s, f⟩ = .ret (r, q)) :
    q.NextIndex ≤ s.length + 1 := by
  simp only [parseTime] at h
  cases hl : parseTimeLoop (s.length - i + 1) ⟨i, s, f⟩ [] with
  | ret x =>
    obtain ⟨time, p1⟩ := x
    have hb := parseTimeLoop_bounded _ i s f [] time p1 hi hl
    simp only [hl] at h
    cases ht : timeToTimestamp (TrimSpace time) with
    | ret r1 =>
      simp only [ht, Exec.ret.injEq, Prod.mk.injEq] at h
      rw [← h.2]
      exact hb
    | panic => simp [ht] at h
    | timeout => simp [ht] at h
  | panic => simp [hl] at h
  | timeout => simp [hl] at h

/-- From a cursor inside the buffer, the loop of `Parse` keeps the buffer, never
moves the cursor back and leaves it at most one past the end. -/
theorem ParseLoop_cursor :
    ∀ (n i : Nat) (s : List Nat) (f : flag) (subs : List Subtitle) (cur : Subtitle)
      (r : List Subtitle × Option error) (q : Parser), i ≤ s.length →
      ParseLoop n ⟨i, s, f⟩ subs cur = .ret (r, q) →
      q.Stream = s ∧ i ≤ q.NextIndex ∧ q.NextIndex ≤ s.length + 1 := by
  intro n
  induction n with
  | zero => intro i s f subs cur r q _ h; simp [ParseLoop] at h
  | succ n ih =>
    intro i s f subs cur r q hi h
    have hret : ∀ (x : List Subtitle × Option error) (i1 : Nat) (f1 : flag), i < i1 →
        i1 ≤ s.length + 1 →
        (Exec.ret (x, (⟨i1, s, f1⟩ : Parser)) : Exec ((List Subtitle × Option error) × Parser)) =
          .ret (r, q) → q.Stream = s ∧ i ≤ q.NextIndex ∧ q.NextIndex ≤ s.length + 1 := by
      intro x i1 f1 h1 h2 h3
      simp only [Exec.ret.injEq, Prod.mk.injEq] at h3
      rw [← h3.2]
      exact ⟨rfl, by show i ≤ i1; omega, h2⟩
    cases f with
    | EOF =>
      simp only [ParseLoop, Exec.ret.injEq, Prod.mk.injEq] at h
      rw [← h.2]
      exact ⟨rfl, le_refl i, by show i ≤ s.length + 1; omega⟩
    | ID =>
      obtain ⟨⟨id, err⟩, ⟨i1, s1, f1⟩, hp, hs, hlt, hfl⟩ := parseId_total i s flag.ID
      have hb := parseId_bounded i s flag.ID _ _ hi hp
      simp only at hs hlt hfl hb
      subst hs
      simp only [ParseLoop, hp] at h
      split_ifs at h with h1 h2
      · exact hret _ _ _ hlt hb h
      · exact hret _ _ _ hlt hb h
      · obtain ⟨a, b, c⟩ := ih _ _ _ _ _ _ _ (hfl h2).1 h
        exact ⟨a, by omega, c⟩
    | START =>
      obtain ⟨⟨ts, err⟩, ⟨i1, s1, f1⟩, hp, hs, hlt, hfl⟩ := parseTime_total i s flag.START
      have hb := parseTime_bounded i s flag.START _ _ hi hp
      simp only at hs hlt hfl hb
      subst hs
      simp only [ParseLoop, hp] at h
      split_ifs at h with h1 h2
      · exact hret _ _ _ hlt hb h
      · exact hret _ _ _ hlt hb h
      · obtain ⟨a, b, c⟩ := ih _ _ _ _ _ _ _ (hfl h2).1 h
        exact ⟨a, by omega, c⟩
    | END =>
      obtain ⟨⟨ts, err⟩, ⟨i1, s1, f1⟩, hp, hs, hlt, hfl⟩ := parseTime_total i s flag.END
      have hb := parseTime_bounded i s flag.END _ _ hi hp
      simp only at hs hlt hfl hb
      subst hs
      simp only [ParseLoop, hp] at h
      split_ifs at h with h1 h2
      · exact hret _ _ _ hlt hb h
      · exact hret _ _ _ hlt hb h
      · obtain ⟨a, b, c⟩ := ih _ _ _ _ _ _ _ (hfl h2).1 h
        exact ⟨a, by omega, c⟩
    | SUBS =>
      obtain ⟨t, ⟨i1, s1, f1⟩, hp, hs, hlt, hfl⟩ := parseSubs_total i s flag.SUBS
      have hb := parseSubsLoop_bounded _ i s flag.SUBS [] _ _ hi hp
      simp only at hs hlt hfl hb
      subst hs
      simp only [ParseLoop, hp] at h
      split_ifs at h with h1
      · obtain ⟨a, b, c⟩ := ih _ _ _ _ _ _ _ (hfl h1).1 h
        exact ⟨a, by omega, c⟩
      · have hf1 : f1 = flag.EOF := by simpa using h1
        subst hf1
        cases n with
        | zero => simp [ParseLoop] at h
        | succ m =>
          simp only [ParseLoop] at h
          exact hret _ _ _ hlt hb h

/-! ### A nil error -/

/-- The loop of `Parse` returns a nil error only from state `EOF`, which it
enters only after an entry has been appended. -/
theorem ParseLoop_nil_error :
    ∀ (n : Nat) (p : Parser) (subs : List Subtitle) (cur : Subtitle) (L : List Subtitle)
      (q : Parser), (p.Flag = flag.EOF → subs ≠ []) →
      ParseLoop n p subs cur = .ret ((L, none), q) → L ≠ [] ∧ q.Flag = flag.EOF := by
  intro n
  induction n with
  | zero => intro p subs cur L q _ h; simp [ParseLoop] at h
  | succ n ih =>
    intro p subs cur L q hne h
    obtain ⟨i, s, f⟩ := p
    cases f with
    | EOF =>
      simp only [ParseLoop, Exec.ret.injEq, Prod.mk.injEq] at h
      obtain ⟨⟨rfl, -⟩, rfl⟩ := h
      exact ⟨hne rfl, rfl⟩
    | ID =>
      simp only [ParseLoop] at h
      cases hid : parseId ⟨i, s, flag.ID⟩ with
      | ret x =>
        obtain ⟨⟨id, err⟩, p1⟩ := x
        simp only [hid] at h
        split_ifs at h with h1 h2
        · simp only [Exec.ret.injEq, Prod.mk.injEq] at h
          exact absurd h.1.2 h1
        · simp [eralyEOFErr] at h
        · exact ih _ _ _ _ _ (by simp) h
      | panic => simp [hid] at h
      | timeout => simp [hid] at h
    | START =>
      simp only [ParseLoop] at h
      cases hid : parseTime ⟨i, s, flag.START⟩ with
      | ret x =>
        obtain ⟨⟨ts, err⟩, p1⟩ := x
        simp only [hid] at h
        split_ifs at h with h1 h2
        · simp only [Exec.ret.injEq, Prod.mk.injEq] at h
          exact absurd h.1.2 h1
        · simp [eralyEOFErr] at h
        · exact ih _ _ _ _ _ (by simp) h
      | panic => simp [hid] at h
      | timeout => simp [hid] at h
    | END =>
      simp only [ParseLoop] at h
      cases hid : parseTime ⟨i, s, flag.END⟩ with
      | ret x =>
        obtain ⟨⟨ts, err⟩, p1⟩ := x
        simp only [hid] at h
        split_ifs at h with h1 h2
        · simp only [Exec.ret.injEq, Prod.mk.injEq] at h
          exact absurd h.1.2 h1
        · simp [eralyEOFErr] at h
        · exact ih _ _ _ _ _ (by simp) h
      | panic => simp [hid] at h
      | timeout => simp [hid] at h
    | SUBS =>
      simp only [ParseLoop] at h
      cases hid : parseSubs ⟨i, s, flag.SUBS⟩ with
      | ret x =>
        obtain ⟨t, p1⟩ := x
        simp only [hid] at h
        split_ifs at h with h1
        · exact ih _ _ _ _ _ (by simp) h
        · exact ih _ _ _ _ _ (by simp) h
      | panic => simp [hid] at h
      | timeout => simp [hid] at h

/-! ### What `bytesToInt` accepts -/

theorem bytesToInt_accepts (s : List Nat) (v : Int) (h : bytesToInt s = (v, none)) :
    signedDigits s = true := by
  cases s with
  | nil => simp [bytesToInt, Atoi] at h
  | cons c rest =>
    simp only [bytesToInt, Atoi] at h
    by_cases hs : c = 45 ∨ c = 43
    · rw [if_pos hs] at h
      by_cases hb : rest = [] ∨ rest.all isDigit = false
      · rw [if_pos hb] at h
        simp at h
      · simp only [not_or, Bool.not_eq_false] at hb
        simp [signedDigits, hs, hb.1, hb.2]
    · rw [if_neg hs] at h
      by_cases hb : (c :: rest) = [] ∨ (c :: rest).all isDigit = false
      · rw [if_pos hb] at h
        simp at h
      · simp only [not_or, Bool.not_eq_false] at hb
        simp [signedDigits, hs, hb.2]

/-- Claim C11 fails: `bytesToInt` converts a token with a sign, and `parseId`
accepts the index line `-7`. -/
theorem C11_counterexample_signed_token :
    bytesToInt (bytes "+5") = (5, none) ∧ bytesToInt (bytes "-5") = (-5, none) ∧
      parseId ⟨0, bytes "-7\n", flag.ID⟩ = .ret ((-7, none), ⟨3, bytes "-7\n", flag.ID⟩) := by
  decide

/-- Claim C11, amended. `bytesToInt` succeeds only on an optional leading sign
followed by one digit or more; so `parseId` returns `error parsing Id`, with
the cursor past the line feed, on every index line whose trimmed token is not
of that form. -/
theorem C11_bytesToInt_signed_digits_only (i : Nat) (s : List Nat) (f : flag)
    (w rest : List Nat) (hf : f ≠ flag.EOF) (h10 : ∀ b ∈ w, b ≠ 10)
    (h : s.drop i = w ++ 10 :: rest) (hbad : signedDigits (TrimSpace w) = false) :
    (∀ (tok : List Nat) (v : Int), bytesToInt tok = (v, none) → signedDigits tok = true) ∧
      parseId ⟨i, s, f⟩ =
        .ret ((0, some (error.New "error parsing Id")), ⟨i + w.length + 1, s, f⟩) := by
  refine ⟨bytesToInt_accepts, ?_⟩
  have hlen := drop_length_eq h
  have hloop := parseIdLoop_line w (s.length - i + 1) i s f [] rest h10 hf h
    (by rw [hlen]; simp; omega)
  simp only [parseId, hloop, List.nil_append]
  rcases hb : bytesToInt (TrimSpace w) with ⟨v, _ | e⟩
  · rw [bytesToInt_accepts _ _ hb] at hbad
    cases hbad
  · have hv : v = 0 := by
      simp only [bytesToInt] at hb
      cases ha : Atoi (TrimSpace w) with
      | error err =>
        rw [ha] at hb
        simp only [Prod.mk.injEq] at hb
        exact hb.1.symm
      | ok num => simp [ha] at hb
    subst hv
    rfl

/-- The amended C11 at the index line `1x`. -/
theorem C11_bytesToInt_signed_digits_only_witness :
    (∀ (tok : List Nat) (v : Int), bytesToInt tok = (v, none) → signedDigits tok = true) ∧
      parseId ⟨0, bytes "1x\n00:00:01,000", flag.ID⟩ =
        .ret ((0, some (error.New "error parsing Id")),
          ⟨0 + (bytes "1x").length + 1, bytes "1x\n00:00:01,000", flag.ID⟩) :=
  C11_bytesToInt_signed_digits_only 0 (bytes "1x\n00:00:01,000") flag.ID (bytes "1x")
    (bytes "00:00:01,000") (by decide) (by decide) (by decide) (by decide)

/-- Claim C15. On every byte buffer `Parse` returns, and in every entry of the
returned list the four fields of `Start` and the four fields of `End` are
non-negative. -/
theorem C15_timestamp_fields_nonneg (stream : List Nat) :
    ∃ L e, parseBuffer stream = .ret (L, e) ∧ ∀ x ∈ L, x.Start.NonNeg ∧ x.End.NonNeg := by
  obtain ⟨⟨⟨L, e⟩, q⟩, hq⟩ :=
    ParseLoop_total (stream.length + 2) 0 stream flag.ID [] Subtitle.zero (by omega)
  refine ⟨L, e, parseBuffer_of_loop hq, ?_⟩
  have hz : Timestamp.zero.NonNeg := ⟨le_refl 0, le_refl 0, le_refl 0, le_refl 0⟩
  exact ParseLoop_entries (fun c => c.Start.NonNeg ∧ c.End.NonNeg)
    (fun c => c.Start.NonNeg ∧ c.End.NonNeg)
    (fun c id hK => hK)
    (fun c p ts p1 hK hp => ⟨parseTime_nonneg p ts none p1 hp, hK.2⟩)
    (fun c p ts p1 hK hp => ⟨hK.1, parseTime_nonneg p ts none p1 hp⟩)
    (fun c t hK => hK)
    (fun c p t p1 hK _ => hK)
    ⟨hz, hz⟩ _ _ _ _ _ _ _ ⟨hz, hz⟩ (by simp) hq

/-- Claim C16. `Parse` terminates in one forward pass. A `read` moves the cursor
by exactly one and raises the EOF flag when the cursor is at or past the end;
`parseId`, `parseTime` and `parseSubs` return within one read per unread byte
plus one, with the cursor strictly further on and still inside the buffer
unless the EOF flag is raised; `Parse`, started inside the buffer, returns with
the cursor not before its start and at most one past the end. -/
theorem C16_parse_single_forward_pass :
    (∀ p : Parser, ∃ b q, read p = .ret (b, q) ∧ q.NextIndex = p.NextIndex + 1 ∧
        q.Stream = p.Stream ∧ (p.Stream.length ≤ p.NextIndex → q.Flag = flag.EOF)) ∧
      (∀ (i : Nat) (s : List Nat) (f : flag), ∃ r q,
        parseId ⟨i, s, f⟩ = .ret (r, q) ∧ Forward i s f q) ∧
      (∀ (i : Nat) (s : List Nat) (f : flag), ∃ r q,
        parseTime ⟨i, s, f⟩ = .ret (r, q) ∧ Forward i s f q) ∧
      (∀ (i : Nat) (s : List Nat) (f : flag), ∃ r q,
        parseSubs ⟨i, s, f⟩ = .ret (r, q) ∧ Forward i s f q) ∧
      (∀ (i : Nat) (s : List Nat) (f : flag), i ≤ s.length → ∃ r q,
        (⟨i, s, f⟩ : Parser).Parse = .ret (r, q) ∧ q.Stream = s ∧ i ≤ q.NextIndex ∧
          q.NextIndex ≤ s.length + 1) := by
  refine ⟨?_, parseId_total, parseTime_total, parseSubs_total, ?_⟩
  · rintro ⟨i, s, f⟩
    rcases read_cases i s f with ⟨b, rest, hd, h⟩ | ⟨hd, h⟩
    · refine ⟨_, _, h, rfl, rfl, ?_⟩
      intro hle
      rw [List.drop_eq_nil_of_le hle] at hd
      cases hd
    · exact ⟨_, _, h, rfl, rfl, fun _ => rfl⟩
  · intro i s f hi
    obtain ⟨⟨r, q⟩, hq⟩ := ParseLoop_total (s.length - i + 2) i s f [] Subtitle.zero (by omega)
    exact ⟨r, q, hq, ParseLoop_cursor _ i s f [] Subtitle.zero r q hi hq⟩

/-- Claim C17, at a file of three lines with no blank line at the end: the loop
ends with the cue still pending and it is not returned; after a first cue
closed by a blank line, only that first cue is returned. -/
theorem C17_final_cue_dropped :
    Better.parseSRTFile [bytes "1", bytes "00:00:01,000 --> 00:00:02,000", bytes "hi"] =
        ([], none) ∧
      Better.parseSRTFile [bytes "1", bytes "00:00:01,000 --> 00:00:02,000", bytes "hi",
          bytes "", bytes "2", bytes "00:00:03,000 --> 00:00:04,000", bytes "yo"] =
        ([⟨1, 1000000000, 2000000000, [bytes "hi"]⟩], none) := by
  decide

/-- Claim C18. On every byte buffer `Parse`, started at cursor 0 in state `ID`,
returns; when the error is nil the list holds an entry at least and the flag
is `EOF`. -/
theorem C18_nil_error_has_entry (stream : List Nat) :
    ∃ L e q, (NewParser stream).Parse = .ret ((L, e), q) ∧
      (e = none → L ≠ [] ∧ q.Flag = flag.EOF) := by
  obtain ⟨⟨⟨L, e⟩, q⟩, hq⟩ :=
    ParseLoop_total (stream.length + 2) 0 stream flag.ID [] Subtitle.zero (by omega)
  refine ⟨L, e, q, hq, ?_⟩
  intro he
  subst he
  exact ParseLoop_nil_error _ _ _ _ _ _ (by simp) hq

/-- Claim C19. On every parser value `parseSubs` returns a string without two
consecutive line feeds; on every byte buffer no entry returned by `Parse` has
two consecutive line feeds in its text. -/
theorem C19_no_blank_line_in_text :
    (∀ p : Parser, ∃ t q, parseSubs p = .ret (t, q) ∧ hasBlank t = false) ∧
      ∀ stream : List Nat, ∃ L e, parseBuffer stream = .ret (L, e) ∧
        ∀ x ∈ L, hasBlank x.Subs = false := by
  constructor
  · rintro ⟨i, s, f⟩
    obtain ⟨t, q, h, -⟩ := parseSubs_total i s f
    exact ⟨t, q, h, parseSubs_no_blank _ t q h⟩
  · intro stream
    obtain ⟨⟨⟨L, e⟩, q⟩, hq⟩ :=
      ParseLoop_total (stream.length + 2) 0 stream flag.ID [] Subtitle.zero (by omega)
    refine ⟨L, e, parseBuffer_of_loop hq, ?_⟩
    exact ParseLoop_entries (fun _ => True) (fun c => hasBlank c.Subs = false)
      (fun _ _ _ => trivial) (fun _ _ _ _ _ _ => trivial) (fun _ _ _ _ _ _ => trivial)
      (fun _ _ _ => trivial) (fun c p t p1 _ hp => parseSubs_no_blank p t p1 hp)
      trivial _ _ _ _ _ _ _ trivial (by simp) hq

/-- Claim C20, at a cue that starts at `00:00:00,000`: its start stays 0 after
the timing line, so the text line is split as a timing line and the parse
fails; the same happens to a cue that ends at `00:00:00,000`. -/
theorem C20_zero_timestamp_reparsed :
    Better.parseSRTFile [bytes "1", bytes "00:00:00,000 --> 00:00:02,000", bytes "hi",
          bytes ""] =
        ([], some (Better.error.New "Invalid time format found while parsing.")) ∧
      Better.parseSRTFile [bytes "1", bytes "00:00:01,000 --> 00:00:00,000", bytes "hi",
          bytes ""] =
        ([], some (Better.error.New "Invalid time format found while parsing.")) ∧
      Better.parseSRTFile [bytes "1", bytes "00:00:01,000 --> 00:00:02,000", bytes "hi",
          bytes ""] =
        ([⟨1, 1000000000, 2000000000, [bytes "hi"]⟩], none) := by
  decide

end Srt
